import Mathlib

/-!
Shallow embedding of `src/bsq.cc`: binary search for key-column matches in a
sorted, delimiter-separated byte buffer, plus the check mode that verifies
sortedness.  Buffers are lists of bytes (naturals); positions are offsets.
The iterator ranges of the C++ loops become explicit step counts (the
distance between the two iterators), so every function is structurally
recursive and computable.
-/

namespace Bsq

/-- Mirror of `struct Config` (the mmap pointers `first`/`last` are replaced
by an explicit buffer and an explicit exclusive bound passed separately). -/
structure Config where
  col_sep : Nat
  row_sep : Nat
  check : Bool
  exact_match : Bool
  fold : Bool
  col : Nat
deriving DecidableEq

/-- Failures raised by `Run` through `HandleError`, carrying the offending
row's bytes. -/
inductive Err where
  | notEnoughColumns (row : List Nat)
  | unordered (row : List Nat)
deriving DecidableEq

/-- `std::toupper` on ASCII bytes, as used by the fold comparator. -/
def toUpperByte (c : Nat) : Nat := if 97 ≤ c ∧ c ≤ 122 then c - 32 else c

/-- The byte transform selected by `config.fold`: identity or uppercase. -/
def transform (cfg : Config) : Nat → Nat :=
  if cfg.fold then toUpperByte else fun c => c

/-- `StringBlock::Compare`: walk both ranges from the start; at the first
differing transformed byte return `f y - f x` (other minus self); if one
range runs out first, return the difference of the remaining lengths. -/
def cmpBytes (f : Nat → Nat) : List Nat → List Nat → Int
  | [], ys => (ys.length : Int)
  | x :: xs, [] => -(((x :: xs).length : Int))
  | x :: xs, y :: ys =>
    if f x = f y then cmpBytes f xs ys else (f y : Int) - (f x : Int)

/-- The walking loop of `StringBlock::IsPrefixOf` (after the length guard):
true iff the first list is exhausted before any transformed mismatch. -/
def prefixAux (f : Nat → Nat) : List Nat → List Nat → Bool
  | [], _ => true
  | _ :: _, [] => false
  | x :: xs, y :: ys => if f x = f y then prefixAux f xs ys else false

/-- `StringBlock::IsPrefixOf`. -/
def isPrefixB (f : Nat → Nat) (a b : List Nat) : Bool :=
  if b.length < a.length then false else prefixAux f a b

instance {E A : Type} [DecidableEq E] [DecidableEq A] : DecidableEq (Except E A) :=
  fun a b =>
  match a, b with
  | .error x, .error y =>
    decidable_of_iff (x = y)
      ⟨fun h => by rw [h], fun h => by injection h⟩
  | .error _, .ok _ => isFalse (fun h => Except.noConfusion h)
  | .ok _, .error _ => isFalse (fun h => Except.noConfusion h)
  | .ok x, .ok y =>
    decidable_of_iff (x = y)
      ⟨fun h => by rw [h], fun h => by injection h⟩

/-- Bytes of the half-open offset range `[i, j)` of the buffer (contents of
`StringBlock{first + i, first + j}`). -/
def slice (buf : List Nat) (i j : Nat) : List Nat := (buf.drop i).take (j - i)

/-- Forward scan of `FindRowEnd`: starting at `pos` with `rem` bytes before
the exclusive bound, stop at the first row-separator byte, recording `q + 1`
for every column-separator byte `q` passed.  Returns the stop position (the
separator's offset, or the bound) and the recorded column starts in scan
order (the deque's `push_back`s). -/
def findRowEndA (cs rs : Nat) (buf : List Nat) : Nat → Nat → Nat × List Nat
  | pos, 0 => (pos, [])
  | pos, rem + 1 =>
    if buf.getD pos 0 = rs then (pos, [])
    else if buf.getD pos 0 = cs then
      let r := findRowEndA cs rs buf (pos + 1) rem
      (r.1, (pos + 1) :: r.2)
    else findRowEndA cs rs buf (pos + 1) rem

/-- `FindRowEnd` proper: the scan followed by `col_pos.push_back(last + 1)`.
Returns the row end and the appended column starts. -/
def findRowEndFull (cs rs : Nat) (buf : List Nat) (pos rem : Nat) : Nat × List Nat :=
  let r := findRowEndA cs rs buf pos rem
  (r.1, r.2 ++ [r.1 + 1])

/-- Backward scan of `FindRowBegin`: examine bytes `pos - 1, pos - 2, …` for
`rem` steps (down to the lower bound), stopping one past the first
row-separator byte; record `q + 1` for every column-separator byte `q`, in
left-to-right order (the deque's `push_front`s). -/
def findRowBeginA (cs rs : Nat) (buf : List Nat) : Nat → Nat → Nat × List Nat
  | pos, 0 => (pos, [])
  | pos, rem + 1 =>
    if buf.getD (pos - 1) 0 = rs then (pos, [])
    else if buf.getD (pos - 1) 0 = cs then
      let r := findRowBeginA cs rs buf (pos - 1) rem
      (r.1, r.2 ++ [pos])
    else findRowBeginA cs rs buf (pos - 1) rem

/-- `Run::GetColumn`: fail when the column-start list is shorter than
`col + 1`, carrying the row's bytes; else return the bytes between the
selected starts, excluding the trailing separator byte. -/
def GetColumn (buf : List Nat) (colStarts : List Nat) (c : Nat)
    (fst lst : Nat) : Except Err (List Nat) :=
  if colStarts.length < c + 1 then
    .error (.notEnoughColumns (slice buf fst lst))
  else
    .ok (slice buf (colStarts.getD (c - 1) 0) (colStarts.getD c 0 - 1))

/-- The binary-search loop of `Run`, fuelled by `ub - lb` (each iteration
strictly shrinks the window).  Returns the final `(lb, ub)` pair, or the
error thrown by `GetColumn`. -/
def bsLoopA (cfg : Config) (key buf : List Nat) : Nat → Nat → Nat → Except Err (Nat × Nat)
  | 0, lb, ub => .ok (lb, ub)
  | fuel + 1, lb, ub =>
    if lb < ub then
      let pos := lb + (ub - lb) / 2
      let rb := findRowBeginA cfg.col_sep cfg.row_sep buf pos (pos - lb)
      let re := findRowEndA cfg.col_sep cfg.row_sep buf pos (ub - pos)
      let colStarts := (rb.1 :: rb.2) ++ re.2 ++ [re.1 + 1]
      match GetColumn buf colStarts cfg.col rb.1 re.1 with
      | .error e => .error e
      | .ok column =>
        if 0 ≤ cmpBytes (transform cfg) key column then
          bsLoopA cfg key buf fuel lb rb.1
        else
          bsLoopA cfg key buf fuel (re.1 + 1) ub
    else .ok (lb, ub)

/-- The match test of the forward scan: `IsExactMatch` (`Compare == 0`) when
`-w` was given, else `IsPrefixMatch` (`IsPrefixOf`). -/
def matchKey (cfg : Config) (key col : List Nat) : Bool :=
  if cfg.exact_match then decide (cmpBytes (transform cfg) key col = 0)
  else isPrefixB (transform cfg) key col

/-- The forward emit loop of `Run`: resolve the row at `lb`, extract the key
column, and emit while the exact/prefix test succeeds.  Rows are emitted as
`(begin, end)` offset pairs in emission order. -/
def scanLoopA (cfg : Config) (key buf : List Nat) (ub : Nat) : Nat → Nat → Except Err (List (Nat × Nat))
  | 0, _ => .ok []
  | fuel + 1, lb =>
    if lb < ub then
      let re := findRowEndA cfg.col_sep cfg.row_sep buf lb (ub - lb)
      let colStarts := lb :: re.2 ++ [re.1 + 1]
      match GetColumn buf colStarts cfg.col lb re.1 with
      | .error e => .error e
      | .ok column =>
        if matchKey cfg key column then
          match scanLoopA cfg key buf ub fuel (re.1 + 1) with
          | .error e => .error e
          | .ok rest => .ok ((lb, re.1) :: rest)
        else .ok []
    else .ok []

/-- The check-mode loop of `Run`: walk the rows in order, requiring each key
column to be ≥ the previous one (`Compare(prev, column) < 0` throws). -/
def checkLoopA (cfg : Config) (buf : List Nat) (ub : Nat) : Nat → Nat → List Nat → Except Err Unit
  | 0, _, _ => .ok ()
  | fuel + 1, lb, prev =>
    if lb < ub then
      let re := findRowEndA cfg.col_sep cfg.row_sep buf lb (ub - lb)
      let colStarts := lb :: re.2 ++ [re.1 + 1]
      match GetColumn buf colStarts cfg.col lb re.1 with
      | .error e => .error e
      | .ok column =>
        if cmpBytes (transform cfg) prev column < 0 then
          .error (.unordered (slice buf lb re.1))
        else checkLoopA cfg buf ub fuel (re.1 + 1) column
    else .ok ()

/-- `Run` with an explicit exclusive buffer bound `n` (`config.last`).
Check mode emits no rows; search mode returns the emitted rows. -/
def RunAt (cfg : Config) (buf : List Nat) (n : Nat) (key : List Nat) : Except Err (List (Nat × Nat)) :=
  if n = 0 then .ok []
  else if cfg.check then
    match checkLoopA cfg buf n n 0 [] with
    | .error e => .error e
    | .ok _ => .ok []
  else
    match bsLoopA cfg key buf n 0 n with
    | .error e => .error e
    | .ok r => scanLoopA cfg key buf n (n - r.1) r.1

/-- `Run` over the whole buffer (`config.first = 0`,
`config.last = buf.length`). -/
def Run (cfg : Config) (buf : List Nat) (key : List Nat) : Except Err (List (Nat × Nat)) :=
  RunAt cfg buf buf.length key

/-! ### The buffer's row decomposition (specification-side view of the scans) -/

/-- First offset `p ≥ pos` with `buf[p] = rs`, fuelled by the remaining
length: the terminating separator of the row containing `pos`. -/
def rowEndA (rs : Nat) (buf : List Nat) : Nat → Nat → Nat
  | pos, 0 => pos
  | pos, rem + 1 => if buf.getD pos 0 = rs then pos else rowEndA rs buf (pos + 1) rem

/-- End of the row starting at `s`: its terminating separator's offset, or
the buffer length when the final row lacks one. -/
def rowEndPos (rs : Nat) (buf : List Nat) (s : Nat) : Nat :=
  rowEndA rs buf s (buf.length - s)

/-- Rows of the buffer from start offset `s` on, as `(start, end)` pairs
with exclusive ends, fuelled. -/
def rowsFromA (rs : Nat) (buf : List Nat) : Nat → Nat → List (Nat × Nat)
  | 0, _ => []
  | fuel + 1, s =>
    if s < buf.length then
      (s, rowEndPos rs buf s) :: rowsFromA rs buf fuel (rowEndPos rs buf s + 1)
    else []

/-- Rows of the buffer from start offset `s` on. -/
def rowsFrom (rs : Nat) (buf : List Nat) (s : Nat) : List (Nat × Nat) :=
  rowsFromA rs buf (buf.length - s) s

/-- All rows of the buffer in file order. -/
def rows (rs : Nat) (buf : List Nat) : List (Nat × Nat) := rowsFrom rs buf 0

/-- Column starts recorded while scanning the range `[s, e)`: one past each
column-separator byte, in increasing order. -/
def seps (cs : Nat) (buf : List Nat) (s e : Nat) : List Nat :=
  ((List.range' s (e - s)).filter (fun q => buf.getD q 0 == cs)).map (fun q => q + 1)

/-- The full column-start list the scans assemble for the row `[s, e)`:
row start, one past every column separator, and the trailing sentinel
`e + 1`. -/
def rowStarts (cs : Nat) (buf : List Nat) (s e : Nat) : List Nat :=
  s :: seps cs buf s e ++ [e + 1]

/-- Number of columns of the row `[s, e)`. -/
def numCols (cs : Nat) (buf : List Nat) (s e : Nat) : Nat :=
  (seps cs buf s e).length + 1

/-- Bytes of the key column of the row `[s, e)` (meaningful when the row has
at least `cfg.col` columns). -/
def kcol (cfg : Config) (buf : List Nat) (s e : Nat) : List Nat :=
  slice buf ((rowStarts cfg.col_sep buf s e).getD (cfg.col - 1) 0)
    ((rowStarts cfg.col_sep buf s e).getD cfg.col 0 - 1)

/-- Key column of a row given as a pair. -/
def kcolR (cfg : Config) (buf : List Nat) (r : Nat × Nat) : List Nat :=
  kcol cfg buf r.1 r.2

/-- The buffer is sorted by the key column under the configured comparator:
adjacent rows' key columns are non-decreasing. -/
def SortedBuf (cfg : Config) (buf : List Nat) : Prop :=
  List.Chain'
    (fun r r' => 0 ≤ cmpBytes (transform cfg) (kcolR cfg buf r) (kcolR cfg buf r'))
    (rows cfg.row_sep buf)

/-- Every row of the buffer has at least the configured number of columns. -/
def ColsOk (cfg : Config) (buf : List Nat) : Prop :=
  ∀ r ∈ rows cfg.row_sep buf, cfg.col ≤ numCols cfg.col_sep buf r.1 r.2

/-- Offset `s` starts a row: it is the buffer start or is preceded by a
row separator. -/
def IsRowStart (rs : Nat) (buf : List Nat) (s : Nat) : Prop :=
  s = 0 ∨ (0 < s ∧ buf.getD (s - 1) 0 = rs)

/-- Boolean adjacent-pairs check, used to decide `SortedBuf` by evaluation. -/
def chainB {α : Type} (p : α → α → Bool) : List α → Bool
  | [] => true
  | [_] => true
  | a :: b :: l => p a b && chainB p (b :: l)

theorem chainB_iff {α : Type} (p : α → α → Bool) :
    ∀ l : List α, (chainB p l = true ↔ List.Chain' (fun a b => p a b = true) l)
  | [] => by simp [chainB]
  | [_] => by simp [chainB]
  | a :: b :: l => by
    show (p a b && chainB p (b :: l)) = true ↔ _
    rw [List.chain'_cons, Bool.and_eq_true, chainB_iff p (b :: l)]

instance (cfg : Config) (buf : List Nat) : Decidable (SortedBuf cfg buf) :=
  decidable_of_iff (chainB
    (fun r r' => decide
      (0 ≤ cmpBytes (transform cfg) (kcolR cfg buf r) (kcolR cfg buf r')))
    (rows cfg.row_sep buf) = true) (by
      rw [chainB_iff]
      constructor
      · intro h
        exact h.imp (fun hab => by simpa using hab)
      · intro h
        exact h.imp (fun hab => by simpa using hab))

instance (cfg : Config) (buf : List Nat) : Decidable (ColsOk cfg buf) :=
  inferInstanceAs (Decidable
    (∀ r ∈ rows cfg.row_sep buf, cfg.col ≤ numCols cfg.col_sep buf r.1 r.2))

instance (rs : Nat) (buf : List Nat) (s : Nat) : Decidable (IsRowStart rs buf s) :=
  inferInstanceAs (Decidable (s = 0 ∨ (0 < s ∧ buf.getD (s - 1) 0 = rs)))

/-! ### Order-theoretic facts about `StringBlock::Compare` and `IsPrefixOf` -/

theorem cmpBytes_nil_left (f : Nat → Nat) (b : List Nat) :
    cmpBytes f [] b = (b.length : Int) := by
  cases b <;> rfl

theorem cmpBytes_self (f : Nat → Nat) (a : List Nat) : cmpBytes f a a = 0 := by
  induction a with
  | nil => rfl
  | cons x xs ih => simpa [cmpBytes] using ih

theorem cmpBytes_swap (f : Nat → Nat) :
    ∀ a b : List Nat, cmpBytes f b a = -cmpBytes f a b := by
  intro a
  induction a with
  | nil => intro b; cases b <;> simp [cmpBytes]
  | cons x xs ih =>
    intro b
    cases b with
    | nil => simp [cmpBytes]
    | cons y ys =>
      by_cases h : f x = f y
      · simp only [cmpBytes, if_pos h, if_pos h.symm, ih ys]
      · have h' : ¬ f y = f x := fun hh => h hh.symm
        simp only [cmpBytes, if_neg h, if_neg h']
        omega

theorem cmpBytes_eq_zero_iff (f : Nat → Nat) :
    ∀ a b : List Nat, cmpBytes f a b = 0 ↔ a.map f = b.map f := by
  intro a
  induction a with
  | nil =>
    intro b
    cases b with
    | nil => simp [cmpBytes]
    | cons y ys => simp only [cmpBytes]; constructor <;> intro hh <;> simp_all <;> omega
  | cons x xs ih =>
    intro b
    cases b with
    | nil => simp only [cmpBytes]; constructor <;> intro hh <;> simp_all <;> omega
    | cons y ys =>
      by_cases h : f x = f y
      · simp [cmpBytes, h, ih ys]
      · simp only [cmpBytes, if_neg h, List.map_cons, List.cons.injEq]
        constructor
        · intro hz; exfalso; omega
        · rintro ⟨h1, -⟩; exact absurd h1 h

theorem cmpBytes_map (f : Nat → Nat) :
    ∀ a b : List Nat, cmpBytes f a b = cmpBytes (fun c => c) (a.map f) (b.map f) := by
  intro a
  induction a with
  | nil => intro b; cases b <;> simp [cmpBytes]
  | cons x xs ih =>
    intro b
    cases b with
    | nil => simp [cmpBytes]
    | cons y ys => by_cases h : f x = f y <;> simp [cmpBytes, h, ih ys]

theorem cmpBytes_trans (f : Nat → Nat) :
    ∀ a b c : List Nat,
      0 ≤ cmpBytes f a b → 0 ≤ cmpBytes f b c → 0 ≤ cmpBytes f a c := by
  intro a
  induction a with
  | nil => intro b c _ _; rw [cmpBytes_nil_left]; positivity
  | cons x xs ih =>
    intro b c hab hbc
    cases b with
    | nil =>
      exfalso
      simp only [cmpBytes] at hab
      have := List.length_cons x xs ▸ hab
      omega
    | cons y ys =>
      cases c with
      | nil =>
        exfalso
        simp only [cmpBytes] at hbc
        have := List.length_cons y ys ▸ hbc
        omega
      | cons z zs =>
        by_cases hxy : f x = f y <;> by_cases hyz : f y = f z
        · have hxz : f x = f z := hxy.trans hyz
          simp only [cmpBytes, if_pos hxy, if_pos hyz, if_pos hxz] at *
          exact ih ys zs hab hbc
        · have hxz : ¬ f x = f z := fun hh => hyz (hxy.symm.trans hh)
          simp only [cmpBytes, if_pos hxy, if_neg hyz, if_neg hxz] at *
          omega
        · have hxz : ¬ f x = f z := fun hh => hxy (hh.trans hyz.symm)
          simp only [cmpBytes, if_neg hxy, if_pos hyz, if_neg hxz] at *
          omega
        · simp only [cmpBytes, if_neg hxy, if_neg hyz] at hab hbc
          have hxz : ¬ f x = f z := by intro hh; omega
          simp only [cmpBytes, if_neg hxz]
          omega

/-- Antisymmetry up to the transform: mutually `≥` columns compare equal. -/
theorem cmpBytes_antisymm (f : Nat → Nat) (a b : List Nat)
    (h1 : 0 ≤ cmpBytes f a b) (h2 : 0 ≤ cmpBytes f b a) : cmpBytes f a b = 0 := by
  rw [cmpBytes_swap] at h2
  omega

/-- Strict transitivity: if `b < a` (i.e. `Compare(a, b) < 0`) and `c ≤ b`,
then `c < a`. -/
theorem cmpBytes_lt_trans (f : Nat → Nat) (a b c : List Nat)
    (h1 : cmpBytes f a b < 0) (h2 : 0 ≤ cmpBytes f c b) :
    cmpBytes f a c < 0 := by
  by_contra hc
  push_neg at hc
  have := cmpBytes_trans f a c b hc h2
  omega

theorem prefixAux_cmp (f : Nat → Nat) :
    ∀ a b : List Nat, prefixAux f a b = true → a.length ≤ b.length →
      0 ≤ cmpBytes f a b := by
  intro a
  induction a with
  | nil => intro b _ _; rw [cmpBytes_nil_left]; positivity
  | cons x xs ih =>
    intro b hpre hlen
    cases b with
    | nil => simp at hlen
    | cons y ys =>
      by_cases h : f x = f y
      · simp only [prefixAux, if_pos h] at hpre
        simp only [cmpBytes, if_pos h]
        exact ih ys hpre (by simpa using hlen)
      · simp only [prefixAux, if_neg h] at hpre
        exact absurd hpre (by simp)

/-- A key that prefix-matches a column never compares above it. -/
theorem isPrefixB_cmp (f : Nat → Nat) (a b : List Nat)
    (h : isPrefixB f a b = true) : 0 ≤ cmpBytes f a b := by
  unfold isPrefixB at h
  by_cases hl : b.length < a.length
  · rw [if_pos hl] at h; exact absurd h (by simp)
  · rw [if_neg hl] at h
    exact prefixAux_cmp f a b h (by omega)

theorem prefixAux_interval (f : Nat → Nat) :
    ∀ k c c' : List Nat,
      0 ≤ cmpBytes f k c → 0 ≤ cmpBytes f c c' →
      prefixAux f k c' = true → k.length ≤ c'.length →
      prefixAux f k c = true ∧ k.length ≤ c.length := by
  intro k
  induction k with
  | nil => intro c c' _ _ _ _; exact ⟨rfl, by simp⟩
  | cons x xs ih =>
    intro c c' hkc hcc hpre hlen
    cases c with
    | nil =>
      exfalso
      simp only [cmpBytes] at hkc
      have := List.length_cons x xs ▸ hkc
      omega
    | cons y ys =>
      cases c' with
      | nil => exact absurd hpre (by simp [prefixAux])
      | cons z zs =>
        by_cases hxz : f x = f z
        · simp only [prefixAux, if_pos hxz] at hpre
          by_cases hxy : f x = f y
          · by_cases hyz : f y = f z
            · simp only [cmpBytes, if_pos hxy, if_pos hyz] at hkc hcc
              obtain ⟨h1, h2⟩ := ih ys zs hkc hcc hpre (by simpa using hlen)
              refine ⟨by simpa [prefixAux, if_pos hxy] using h1, by simpa using h2⟩
            · exfalso; exact hyz (hxy.symm.trans hxz)
          · exfalso
            by_cases hyz : f y = f z
            · exact hxy (hxz.trans hyz.symm)
            · simp only [cmpBytes, if_neg hxy, if_neg hyz] at hkc hcc
              omega
        · simp only [prefixAux, if_neg hxz] at hpre
          exact absurd hpre (by simp)

/-- Prefix matches are downward closed on an ascending run: if `k ≤ c ≤ c'`
under the comparator and `k` prefix-matches `c'`, it also prefix-matches
`c`. -/
theorem isPrefixB_interval (f : Nat → Nat) (k c c' : List Nat)
    (hkc : 0 ≤ cmpBytes f k c) (hcc : 0 ≤ cmpBytes f c c')
    (hpre : isPrefixB f k c' = true) : isPrefixB f k c = true := by
  unfold isPrefixB at hpre ⊢
  by_cases hl : c'.length < k.length
  · rw [if_pos hl] at hpre; exact absurd hpre (by simp)
  · rw [if_neg hl] at hpre
    obtain ⟨h1, h2⟩ := prefixAux_interval f k c c' hkc hcc hpre (by omega)
    rw [if_neg (by omega)]
    exact h1

/-! ### Characterising the row scans -/

theorem seps_self (cs : Nat) (buf : List Nat) (s : Nat) : seps cs buf s s = [] := by
  simp [seps]

theorem seps_append (cs : Nat) (buf : List Nat) {s m e : Nat}
    (h1 : s ≤ m) (h2 : m ≤ e) :
    seps cs buf s e = seps cs buf s m ++ seps cs buf m e := by
  unfold seps
  have h3 : e - s = (e - m) + (m - s) := by omega
  have h4 : s + (m - s) = m := by omega
  have h5 := List.range'_append_1 s (m - s) (e - m)
  rw [h4] at h5
  rw [h3, ← h5, List.filter_append, List.map_append]

theorem seps_cons (cs : Nat) (buf : List Nat) {s e : Nat} (h : s < e) :
    seps cs buf s e =
      (if buf.getD s 0 = cs then [s + 1] else []) ++ seps cs buf (s + 1) e := by
  unfold seps
  have h1 : e - s = (e - (s + 1)) + 1 := by omega
  rw [h1, List.range'_succ, List.filter_cons]
  simp only [beq_iff_eq]
  by_cases h2 : buf.getD s 0 = cs
  · rw [if_pos h2, if_pos h2, List.map_cons]
    rfl
  · rw [if_neg h2, if_neg h2]
    rfl

theorem findRowEndA_spec (cs rs : Nat) (buf : List Nat) :
    ∀ rem pos,
      pos ≤ (findRowEndA cs rs buf pos rem).1 ∧
      (findRowEndA cs rs buf pos rem).1 ≤ pos + rem ∧
      (∀ q, pos ≤ q → q < (findRowEndA cs rs buf pos rem).1 → buf.getD q 0 ≠ rs) ∧
      ((findRowEndA cs rs buf pos rem).1 < pos + rem →
        buf.getD (findRowEndA cs rs buf pos rem).1 0 = rs) ∧
      (findRowEndA cs rs buf pos rem).2 = seps cs buf pos (findRowEndA cs rs buf pos rem).1 := by
  intro rem
  induction rem with
  | zero =>
    intro pos
    refine ⟨le_refl _, by simp [findRowEndA], ?_, ?_, ?_⟩
    · intro q hq1 hq2; simp only [findRowEndA] at hq2; omega
    · intro hlt; simp only [findRowEndA] at hlt; omega
    · simp [findRowEndA, seps_self]
  | succ rem ih =>
    intro pos
    by_cases h1 : buf.getD pos 0 = rs
    · simp only [findRowEndA, if_pos h1]
      refine ⟨le_refl _, by omega, ?_, fun _ => h1, (seps_self cs buf pos).symm⟩
      intro q hq1 hq2; omega
    · by_cases h2 : buf.getD pos 0 = cs
      · obtain ⟨i1, i2, i3, i4, i5⟩ := ih (pos + 1)
        have hfe : findRowEndA cs rs buf pos (rem + 1) =
            ((findRowEndA cs rs buf (pos + 1) rem).1,
              (pos + 1) :: (findRowEndA cs rs buf (pos + 1) rem).2) := by
          simp only [findRowEndA, if_neg h1, if_pos h2]
        rw [hfe]
        refine ⟨by omega, by omega, ?_, ?_, ?_⟩
        · intro q hq1 hq2
          rcases Nat.eq_or_lt_of_le hq1 with hq | hq
          · exact hq ▸ h1
          · exact i3 q hq hq2
        · intro hlt; exact i4 (by omega)
        · show (pos + 1) :: (findRowEndA cs rs buf (pos + 1) rem).2 = _
          rw [i5, seps_cons cs buf (by omega : pos < (findRowEndA cs rs buf (pos + 1) rem).1),
            if_pos h2]
          rfl
      · obtain ⟨i1, i2, i3, i4, i5⟩ := ih (pos + 1)
        have hfe : findRowEndA cs rs buf pos (rem + 1) =
            findRowEndA cs rs buf (pos + 1) rem := by
          simp only [findRowEndA, if_neg h1, if_neg h2]
        rw [hfe]
        refine ⟨by omega, by omega, ?_, ?_, ?_⟩
        · intro q hq1 hq2
          rcases Nat.eq_or_lt_of_le hq1 with hq | hq
          · exact hq ▸ h1
          · exact i3 q hq hq2
        · intro hlt; exact i4 (by omega)
        · rw [i5, seps_cons cs buf (by omega : pos < (findRowEndA cs rs buf (pos + 1) rem).1),
            if_neg h2]
          rfl

theorem findRowBeginA_spec (cs rs : Nat) (buf : List Nat) :
    ∀ rem pos, rem ≤ pos →
      pos - rem ≤ (findRowBeginA cs rs buf pos rem).1 ∧
      (findRowBeginA cs rs buf pos rem).1 ≤ pos ∧
      (∀ q, (findRowBeginA cs rs buf pos rem).1 ≤ q → q < pos → buf.getD q 0 ≠ rs) ∧
      (pos - rem < (findRowBeginA cs rs buf pos rem).1 →
        0 < (findRowBeginA cs rs buf pos rem).1 ∧
        buf.getD ((findRowBeginA cs rs buf pos rem).1 - 1) 0 = rs) ∧
      (findRowBeginA cs rs buf pos rem).2 =
        seps cs buf (findRowBeginA cs rs buf pos rem).1 pos := by
  intro rem
  induction rem with
  | zero =>
    intro pos _
    refine ⟨by simp [findRowBeginA], by simp [findRowBeginA], ?_, ?_, ?_⟩
    · intro q hq1 hq2; simp only [findRowBeginA] at hq1; omega
    · intro hlt; simp only [findRowBeginA] at hlt; omega
    · simp [findRowBeginA, seps_self]
  | succ rem ih =>
    intro pos hrem
    by_cases h1 : buf.getD (pos - 1) 0 = rs
    · simp only [findRowBeginA, if_pos h1]
      refine ⟨by omega, le_refl _, ?_, fun _ => ⟨by omega, h1⟩, (seps_self cs buf pos).symm⟩
      intro q hq1 hq2; omega
    · by_cases h2 : buf.getD (pos - 1) 0 = cs
      · simp only [findRowBeginA, if_neg h1, if_pos h2]
        obtain ⟨i1, i2, i3, i4, i5⟩ := ih (pos - 1) (by omega)
        refine ⟨by omega, by omega, ?_, ?_, ?_⟩
        · intro q hq1 hq2
          by_cases hq : q < pos - 1
          · exact i3 q hq1 hq
          · have : q = pos - 1 := by omega
            exact this ▸ h1
        · intro hlt; exact i4 (by omega)
        · show (findRowBeginA cs rs buf (pos - 1) rem).2 ++ [pos] = _
          rw [i5,
            seps_append cs buf i2 (by omega : pos - 1 ≤ pos),
            seps_cons cs buf (by omega : pos - 1 < pos)]
          have h3 : pos - 1 + 1 = pos := by omega
          rw [h3, seps_self, if_pos h2]
          simp
      · simp only [findRowBeginA, if_neg h1, if_neg h2]
        obtain ⟨i1, i2, i3, i4, i5⟩ := ih (pos - 1) (by omega)
        refine ⟨by omega, by omega, ?_, ?_, ?_⟩
        · intro q hq1 hq2
          by_cases hq : q < pos - 1
          · exact i3 q hq1 hq
          · have : q = pos - 1 := by omega
            exact this ▸ h1
        · intro hlt; exact i4 (by omega)
        · rw [i5,
            seps_append cs buf i2 (by omega : pos - 1 ≤ pos),
            seps_cons cs buf (by omega : pos - 1 < pos)]
          have h3 : pos - 1 + 1 = pos := by omega
          rw [h3, seps_self, if_neg h2]
          simp

/-! ### The row decomposition -/

theorem rowEndA_ge (rs : Nat) (buf : List Nat) :
    ∀ rem pos, pos ≤ rowEndA rs buf pos rem := by
  intro rem
  induction rem with
  | zero => intro pos; simp [rowEndA]
  | succ rem ih =>
    intro pos
    by_cases h : buf.getD pos 0 = rs
    · rw [rowEndA, if_pos h]
    · rw [rowEndA, if_neg h]
      have := ih (pos + 1)
      omega

theorem rowEndA_le (rs : Nat) (buf : List Nat) :
    ∀ rem pos, rowEndA rs buf pos rem ≤ pos + rem := by
  intro rem
  induction rem with
  | zero => intro pos; simp [rowEndA]
  | succ rem ih =>
    intro pos
    by_cases h : buf.getD pos 0 = rs
    · rw [rowEndA, if_pos h]; omega
    · rw [rowEndA, if_neg h]
      have := ih (pos + 1)
      omega

theorem rowEndA_interior (rs : Nat) (buf : List Nat) :
    ∀ rem pos q, pos ≤ q → q < rowEndA rs buf pos rem → buf.getD q 0 ≠ rs := by
  intro rem
  induction rem with
  | zero => intro pos q h1 h2; simp only [rowEndA] at h2; omega
  | succ rem ih =>
    intro pos q h1 h2
    by_cases h : buf.getD pos 0 = rs
    · rw [rowEndA, if_pos h] at h2; omega
    · rw [rowEndA, if_neg h] at h2
      rcases Nat.eq_or_lt_of_le h1 with hq | hq
      · exact hq ▸ h
      · exact ih (pos + 1) q hq h2

theorem rowEndA_boundary (rs : Nat) (buf : List Nat) :
    ∀ rem pos, rowEndA rs buf pos rem < pos + rem →
      buf.getD (rowEndA rs buf pos rem) 0 = rs := by
  intro rem
  induction rem with
  | zero => intro pos h; simp only [rowEndA] at h ⊢; omega
  | succ rem ih =>
    intro pos h
    by_cases hb : buf.getD pos 0 = rs
    · rw [rowEndA, if_pos hb]; exact hb
    · rw [rowEndA, if_neg hb] at h ⊢
      exact ih (pos + 1) (by omega)

theorem rowEndA_eq_fst (cs rs : Nat) (buf : List Nat) :
    ∀ rem pos, (findRowEndA cs rs buf pos rem).1 = rowEndA rs buf pos rem := by
  intro rem
  induction rem with
  | zero => intro pos; rfl
  | succ rem ih =>
    intro pos
    by_cases h1 : buf.getD pos 0 = rs
    · simp only [findRowEndA, rowEndA]
      rw [if_pos h1, if_pos h1]
    · by_cases h2 : buf.getD pos 0 = cs
      · simp only [findRowEndA, rowEndA]
        rw [if_neg h1, if_neg h1, if_pos h2]
        exact ih (pos + 1)
      · simp only [findRowEndA, rowEndA]
        rw [if_neg h1, if_neg h1, if_neg h2]
        exact ih (pos + 1)

theorem rowEndA_eq_of (rs : Nat) (buf : List Nat) :
    ∀ rem s e, s ≤ e → e ≤ s + rem →
      (∀ q, s ≤ q → q < e → buf.getD q 0 ≠ rs) →
      (e < s + rem → buf.getD e 0 = rs) →
      rowEndA rs buf s rem = e := by
  intro rem
  induction rem with
  | zero => intro s e h1 h2 _ _; simp only [rowEndA]; omega
  | succ rem ih =>
    intro s e h1 h2 h3 h4
    rcases Nat.eq_or_lt_of_le h1 with hs | hs
    · have hb : buf.getD e 0 = rs := h4 (by omega)
      rw [← hs] at hb ⊢
      rw [rowEndA, if_pos hb]
    · have hb : ¬ buf.getD s 0 = rs := h3 s (le_refl s) hs
      rw [rowEndA, if_neg hb]
      exact ih (s + 1) e (by omega) (by omega) (fun q hq1 hq2 => h3 q (by omega) hq2)
        (fun hlt => h4 (by omega))

theorem rowEndPos_ge (rs : Nat) (buf : List Nat) (s : Nat) : s ≤ rowEndPos rs buf s :=
  rowEndA_ge rs buf (buf.length - s) s

theorem rowEndPos_le (rs : Nat) (buf : List Nat) {s : Nat} (h : s ≤ buf.length) :
    rowEndPos rs buf s ≤ buf.length := by
  unfold rowEndPos
  have := rowEndA_le rs buf (buf.length - s) s
  omega

theorem rowEndPos_interior (rs : Nat) (buf : List Nat) {s : Nat} :
    ∀ q, s ≤ q → q < rowEndPos rs buf s → buf.getD q 0 ≠ rs :=
  fun q h1 h2 => rowEndA_interior rs buf (buf.length - s) s q h1 h2

theorem rowEndPos_sep (rs : Nat) (buf : List Nat) {s : Nat}
    (h : rowEndPos rs buf s < buf.length) :
    buf.getD (rowEndPos rs buf s) 0 = rs := by
  have hge := rowEndPos_ge rs buf s
  unfold rowEndPos at h ⊢
  exact rowEndA_boundary rs buf (buf.length - s) s (by omega)

theorem rowEndPos_le_of_sep (rs : Nat) (buf : List Nat) {s p : Nat}
    (hsp : s ≤ p) (hpn : p < buf.length) (hrs : buf.getD p 0 = rs) :
    rowEndPos rs buf s ≤ p := by
  by_contra hc
  push_neg at hc
  exact rowEndPos_interior rs buf p hsp hc hrs

theorem rowEndPos_eq_of (rs : Nat) (buf : List Nat) {s e : Nat}
    (h1 : s ≤ e) (h2 : e ≤ buf.length)
    (h3 : ∀ q, s ≤ q → q < e → buf.getD q 0 ≠ rs)
    (h4 : e = buf.length ∨ buf.getD e 0 = rs) :
    rowEndPos rs buf s = e := by
  unfold rowEndPos
  refine rowEndA_eq_of rs buf (buf.length - s) s e h1 (by omega) h3 ?_
  intro hlt
  rcases h4 with h | h
  · omega
  · exact h

theorem rowsFromA_zero (rs : Nat) (buf : List Nat) (t : Nat) :
    rowsFromA rs buf 0 t = [] := rfl

theorem rowsFromA_succ (rs : Nat) (buf : List Nat) (fuel t : Nat) :
    rowsFromA rs buf (fuel + 1) t =
      if t < buf.length then
        (t, rowEndPos rs buf t) :: rowsFromA rs buf fuel (rowEndPos rs buf t + 1)
      else [] := rfl

theorem rowsFromA_congr (rs : Nat) (buf : List Nat) :
    ∀ fuel1 fuel2 t, buf.length - t ≤ fuel1 → buf.length - t ≤ fuel2 →
      rowsFromA rs buf fuel1 t = rowsFromA rs buf fuel2 t := by
  intro fuel1
  induction fuel1 with
  | zero =>
    intro fuel2 t h1 h2
    cases fuel2 with
    | zero => rfl
    | succ f2 => rw [rowsFromA_zero, rowsFromA_succ, if_neg (by omega)]
  | succ f1 ih =>
    intro fuel2 t h1 h2
    cases fuel2 with
    | zero => rw [rowsFromA_zero, rowsFromA_succ, if_neg (by omega)]
    | succ f2 =>
      rw [rowsFromA_succ, rowsFromA_succ]
      by_cases ht : t < buf.length
      · rw [if_pos ht, if_pos ht]
        have he := rowEndPos_ge rs buf t
        rw [ih f2 (rowEndPos rs buf t + 1) (by omega) (by omega)]
      · rw [if_neg ht, if_neg ht]

theorem rowsFromA_eq (rs : Nat) (buf : List Nat) :
    ∀ fuel t, buf.length - t ≤ fuel →
      rowsFromA rs buf fuel t = rowsFrom rs buf t := by
  intro fuel t h
  rw [rowsFrom]
  exact rowsFromA_congr rs buf fuel (buf.length - t) t h (le_refl _)

theorem rowsFrom_eq_cons (rs : Nat) (buf : List Nat) {t : Nat} (h : t < buf.length) :
    rowsFrom rs buf t =
      (t, rowEndPos rs buf t) :: rowsFrom rs buf (rowEndPos rs buf t + 1) := by
  have he := rowEndPos_ge rs buf t
  rw [rowsFrom]
  have hn : buf.length - t = (buf.length - t - 1) + 1 := by omega
  rw [hn, rowsFromA_succ, if_pos h, rowsFromA_eq rs buf _ _ (by omega)]

theorem rowsFrom_eq_nil (rs : Nat) (buf : List Nat) {t : Nat} (h : buf.length ≤ t) :
    rowsFrom rs buf t = [] := by
  rw [rowsFrom]
  have h0 : buf.length - t = 0 := by omega
  rw [h0]
  rfl

theorem mem_rowsFrom_iff (rs : Nat) (buf : List Nat) {s e : Nat} :
    ∀ t, ((s, e) ∈ rowsFrom rs buf t ↔
      t ≤ s ∧ s < buf.length ∧ (s = t ∨ (0 < s ∧ buf.getD (s - 1) 0 = rs)) ∧
        e = rowEndPos rs buf s) := by
  have main : ∀ fuel t, buf.length - t ≤ fuel →
      ((s, e) ∈ rowsFrom rs buf t ↔
        t ≤ s ∧ s < buf.length ∧ (s = t ∨ (0 < s ∧ buf.getD (s - 1) 0 = rs)) ∧
          e = rowEndPos rs buf s) := by
    intro fuel
    induction fuel with
    | zero =>
      intro t h
      rw [rowsFrom_eq_nil rs buf (by omega)]
      simp only [List.not_mem_nil, false_iff]
      intro hc
      omega
    | succ fuel ih =>
      intro t h
      by_cases ht : t < buf.length
      · rw [rowsFrom_eq_cons rs buf ht]
        have hge := rowEndPos_ge rs buf t
        constructor
        · intro hm
          rcases List.mem_cons.mp hm with hm | hm
          · have hs : s = t := congrArg Prod.fst hm
            have he : e = rowEndPos rs buf t := congrArg Prod.snd hm
            exact ⟨by omega, by omega, Or.inl hs, hs ▸ he⟩
          · obtain ⟨m1, m2, m3, m4⟩ := (ih (rowEndPos rs buf t + 1) (by omega)).mp hm
            refine ⟨by omega, m2, ?_, m4⟩
            rcases m3 with m3 | m3
            · refine Or.inr ⟨by omega, ?_⟩
              have : s - 1 = rowEndPos rs buf t := by omega
              rw [this]
              exact rowEndPos_sep rs buf (by omega)
            · exact Or.inr m3
        · rintro ⟨m1, m2, m3, m4⟩
          rcases Nat.eq_or_lt_of_le m1 with hs | hs
          · subst hs
            exact List.mem_cons.mpr (Or.inl (by rw [m4]))
          · rcases m3 with m3 | m3
            · omega
            · refine List.mem_cons.mpr (Or.inr
                ((ih (rowEndPos rs buf t + 1) (by omega)).mpr ⟨?_, m2, Or.inr m3, m4⟩))
              have := rowEndPos_le_of_sep rs buf (by omega : t ≤ s - 1) (by omega) m3.2
              omega
      · rw [rowsFrom_eq_nil rs buf (by omega)]
        simp only [List.not_mem_nil, false_iff]
        intro hc
        omega
  intro t
  exact main (buf.length - t) t (le_refl _)

theorem mem_rows_iff (rs : Nat) (buf : List Nat) {r : Nat × Nat} :
    r ∈ rows rs buf ↔
      r.1 < buf.length ∧ IsRowStart rs buf r.1 ∧ r.2 = rowEndPos rs buf r.1 := by
  obtain ⟨s, e⟩ := r
  rw [rows, mem_rowsFrom_iff rs buf 0]
  unfold IsRowStart
  constructor
  · rintro ⟨-, h2, h3, h4⟩
    exact ⟨h2, h3, h4⟩
  · rintro ⟨h2, h3, h4⟩
    exact ⟨Nat.zero_le s, h2, h3, h4⟩

theorem rowsFrom_start_ge (rs : Nat) (buf : List Nat) :
    ∀ fuel t r, r ∈ rowsFromA rs buf fuel t → t ≤ r.1 := by
  intro fuel
  induction fuel with
  | zero => intro t r h; rw [rowsFromA_zero] at h; simp at h
  | succ fuel ih =>
    intro t r h
    rw [rowsFromA_succ] at h
    by_cases ht : t < buf.length
    · rw [if_pos ht] at h
      rcases List.mem_cons.mp h with h | h
      · rw [h]
      · have := ih _ r h
        have := rowEndPos_ge rs buf t
        omega
    · rw [if_neg ht] at h
      simp at h

theorem rows_starts_pairwise (rs : Nat) (buf : List Nat) :
    ∀ fuel t, List.Pairwise (fun r r' : Nat × Nat => r.1 < r'.1) (rowsFromA rs buf fuel t) := by
  intro fuel
  induction fuel with
  | zero => intro t; rw [rowsFromA_zero]; exact List.Pairwise.nil
  | succ fuel ih =>
    intro t
    rw [rowsFromA_succ]
    by_cases ht : t < buf.length
    · rw [if_pos ht]
      refine List.pairwise_cons.mpr ⟨?_, ih _⟩
      intro r hr
      have h1 := rowsFrom_start_ge rs buf fuel (rowEndPos rs buf t + 1) r hr
      have h2 := rowEndPos_ge rs buf t
      omega
    · rw [if_neg ht]
      exact List.Pairwise.nil

theorem rowsFrom_split (rs : Nat) (buf : List Nat) {lb : Nat}
    (hstart : IsRowStart rs buf lb) (hle : lb ≤ buf.length) :
    ∀ fuel t, buf.length - t ≤ fuel → t ≤ lb →
      ∃ pre, rowsFrom rs buf t = pre ++ rowsFrom rs buf lb ∧ ∀ r ∈ pre, r.1 < lb := by
  intro fuel
  induction fuel with
  | zero =>
    intro t h1 h2
    have ht : t = lb := by omega
    exact ⟨[], by rw [ht]; simp, by simp⟩
  | succ fuel ih =>
    intro t h1 h2
    rcases Nat.eq_or_lt_of_le h2 with ht | ht
    · exact ⟨[], by rw [ht]; simp, by simp⟩
    · have hlb0 : 0 < lb := by omega
      have hsep : buf.getD (lb - 1) 0 = rs := by
        rcases hstart with h | h
        · omega
        · exact h.2
      have htn : t < buf.length := by omega
      have hend : rowEndPos rs buf t ≤ lb - 1 :=
        rowEndPos_le_of_sep rs buf (by omega) (by omega) hsep
      obtain ⟨pre, hpre1, hpre2⟩ :=
        ih (rowEndPos rs buf t + 1) (by have := rowEndPos_ge rs buf t; omega) (by omega)
      refine ⟨(t, rowEndPos rs buf t) :: pre, ?_, ?_⟩
      · rw [rowsFrom_eq_cons rs buf htn, hpre1]
        rfl
      · intro r hr
        rcases List.mem_cons.mp hr with hr | hr
        · rw [hr]; exact ht
        · exact hpre2 r hr

/-! ### Columns of a resolved row, and transport of sortedness -/

theorem rowStarts_length (cs : Nat) (buf : List Nat) (s e : Nat) :
    (rowStarts cs buf s e).length = numCols cs buf s e + 1 := by
  simp [rowStarts, numCols]

theorem getColumn_rowStarts (cfg : Config) (buf : List Nat) {s e : Nat}
    (hcols : cfg.col ≤ numCols cfg.col_sep buf s e) :
    GetColumn buf (rowStarts cfg.col_sep buf s e) cfg.col s e =
      .ok (kcol cfg buf s e) := by
  unfold GetColumn
  rw [if_neg (by rw [rowStarts_length]; omega)]
  rfl

theorem getColumn_rowStarts_err (cfg : Config) (buf : List Nat) {s e : Nat}
    (hcols : numCols cfg.col_sep buf s e < cfg.col) :
    GetColumn buf (rowStarts cfg.col_sep buf s e) cfg.col s e =
      .error (.notEnoughColumns (slice buf s e)) := by
  unfold GetColumn
  rw [if_pos (by rw [rowStarts_length]; omega)]

theorem rows_eq_of_start (rs : Nat) (buf : List Nat) {r r' : Nat × Nat}
    (hr : r ∈ rows rs buf) (hr' : r' ∈ rows rs buf) (h : r.1 = r'.1) : r = r' := by
  obtain ⟨-, -, h2⟩ := (mem_rows_iff rs buf).mp hr
  obtain ⟨-, -, h2'⟩ := (mem_rows_iff rs buf).mp hr'
  have : r.2 = r'.2 := by rw [h2, h2', h]
  exact Prod.ext h this

theorem no_start_in_row (rs : Nat) (buf : List Nat) {s e : Nat}
    (hint : ∀ q, s ≤ q → q < e → buf.getD q 0 ≠ rs) :
    ∀ t, IsRowStart rs buf t → s < t → t ≤ e → False := by
  intro t hts h1 h2
  rcases hts with h | h
  · omega
  · exact hint (t - 1) (by omega) (by omega) h.2

theorem sorted_pairwise (cfg : Config) (buf : List Nat) (h : SortedBuf cfg buf) :
    List.Pairwise
      (fun r r' => 0 ≤ cmpBytes (transform cfg) (kcolR cfg buf r) (kcolR cfg buf r'))
      (rows cfg.row_sep buf) := by
  haveI : IsTrans (Nat × Nat)
      (fun r r' => 0 ≤ cmpBytes (transform cfg) (kcolR cfg buf r) (kcolR cfg buf r')) :=
    ⟨fun a b c hab hbc =>
      cmpBytes_trans (transform cfg) (kcolR cfg buf a) (kcolR cfg buf b) (kcolR cfg buf c) hab hbc⟩
  exact List.chain'_iff_pairwise.mp h

theorem rows_pairwise_starts (rs : Nat) (buf : List Nat) :
    List.Pairwise (fun r r' : Nat × Nat => r.1 < r'.1) (rows rs buf) := by
  rw [rows, rowsFrom]
  exact rows_starts_pairwise rs buf (buf.length - 0) 0

theorem rows_col_le (cfg : Config) (buf : List Nat) (hs : SortedBuf cfg buf)
    {r r' : Nat × Nat} (hr : r ∈ rows cfg.row_sep buf) (hr' : r' ∈ rows cfg.row_sep buf)
    (hle : r.1 ≤ r'.1) :
    0 ≤ cmpBytes (transform cfg) (kcolR cfg buf r) (kcolR cfg buf r') := by
  obtain ⟨i, hi, hieq⟩ := List.getElem_of_mem hr
  obtain ⟨j, hj, hjeq⟩ := List.getElem_of_mem hr'
  have hpw := List.pairwise_iff_getElem.mp (sorted_pairwise cfg buf hs)
  have hst := List.pairwise_iff_getElem.mp (rows_pairwise_starts cfg.row_sep buf)
  rcases lt_trichotomy i j with hij | hij | hij
  · have := hpw i j hi hj hij
    rw [hieq, hjeq] at this
    exact this
  · subst hij
    have : r = r' := by rw [← hieq, ← hjeq]
    rw [this, cmpBytes_self]
  · have := hst j i hj hi hij
    rw [hieq, hjeq] at this
    omega

/-! ### The probed row of a binary-search iteration -/

theorem probe_spec (cfg : Config) (buf : List Nat) {lb pos ub : Nat}
    (hstart : IsRowStart cfg.row_sep buf lb)
    (h1 : lb ≤ pos) (h2 : pos < ub) (h3 : ub ≤ buf.length)
    (h4 : ub = buf.length ∨ buf.getD (ub - 1) 0 = cfg.row_sep) :
    lb ≤ (findRowBeginA cfg.col_sep cfg.row_sep buf pos (pos - lb)).1 ∧
    (findRowBeginA cfg.col_sep cfg.row_sep buf pos (pos - lb)).1 ≤ pos ∧
    pos ≤ (findRowEndA cfg.col_sep cfg.row_sep buf pos (ub - pos)).1 ∧
    (findRowEndA cfg.col_sep cfg.row_sep buf pos (ub - pos)).1 ≤ ub ∧
    ((findRowEndA cfg.col_sep cfg.row_sep buf pos (ub - pos)).1 < ub ∨ ub = buf.length) ∧
    IsRowStart cfg.row_sep buf (findRowBeginA cfg.col_sep cfg.row_sep buf pos (pos - lb)).1 ∧
    (∀ q, (findRowBeginA cfg.col_sep cfg.row_sep buf pos (pos - lb)).1 ≤ q →
      q < (findRowEndA cfg.col_sep cfg.row_sep buf pos (ub - pos)).1 →
      buf.getD q 0 ≠ cfg.row_sep) ∧
    ((findRowBeginA cfg.col_sep cfg.row_sep buf pos (pos - lb)).1,
      (findRowEndA cfg.col_sep cfg.row_sep buf pos (ub - pos)).1) ∈ rows cfg.row_sep buf ∧
    ((findRowBeginA cfg.col_sep cfg.row_sep buf pos (pos - lb)).1 ::
        (findRowBeginA cfg.col_sep cfg.row_sep buf pos (pos - lb)).2) ++
      (findRowEndA cfg.col_sep cfg.row_sep buf pos (ub - pos)).2 ++
      [(findRowEndA cfg.col_sep cfg.row_sep buf pos (ub - pos)).1 + 1] =
      rowStarts cfg.col_sep buf (findRowBeginA cfg.col_sep cfg.row_sep buf pos (pos - lb)).1
        (findRowEndA cfg.col_sep cfg.row_sep buf pos (ub - pos)).1 := by
  obtain ⟨b1, b2, b3, b4, b5⟩ :=
    findRowBeginA_spec cfg.col_sep cfg.row_sep buf (pos - lb) pos (by omega)
  obtain ⟨e1, e2, e3, e4, e5⟩ :=
    findRowEndA_spec cfg.col_sep cfg.row_sep buf (ub - pos) pos
  have hpodd : pos + (ub - pos) = ub := by omega
  rw [hpodd] at e2 e4
  have hlbeq : pos - (pos - lb) = lb := by omega
  rw [hlbeq] at b1 b4
  have hgb : lb ≤ (findRowBeginA cfg.col_sep cfg.row_sep buf pos (pos - lb)).1 := b1
  have hrowstart : IsRowStart cfg.row_sep buf
      (findRowBeginA cfg.col_sep cfg.row_sep buf pos (pos - lb)).1 := by
    rcases Nat.eq_or_lt_of_le b1 with hb | hb
    · rw [← hb]; exact hstart
    · exact Or.inr (b4 hb)
  have hint : ∀ q, (findRowBeginA cfg.col_sep cfg.row_sep buf pos (pos - lb)).1 ≤ q →
      q < (findRowEndA cfg.col_sep cfg.row_sep buf pos (ub - pos)).1 →
      buf.getD q 0 ≠ cfg.row_sep := by
    intro q hq1 hq2
    by_cases hq : q < pos
    · exact b3 q hq1 hq
    · exact e3 q (by omega) hq2
  have hendcase : (findRowEndA cfg.col_sep cfg.row_sep buf pos (ub - pos)).1 < ub ∨
      ub = buf.length := by
    by_cases he : (findRowEndA cfg.col_sep cfg.row_sep buf pos (ub - pos)).1 < ub
    · exact Or.inl he
    · rcases h4 with h | h
      · exact Or.inr h
      · exfalso
        exact e3 (ub - 1) (by omega) (by omega) h
  have hendeq : (findRowEndA cfg.col_sep cfg.row_sep buf pos (ub - pos)).1 =
      rowEndPos cfg.row_sep buf (findRowBeginA cfg.col_sep cfg.row_sep buf pos (pos - lb)).1 := by
    refine (rowEndPos_eq_of cfg.row_sep buf (by omega) (by omega) hint ?_).symm
    rcases hendcase with he | he
    · exact Or.inr (e4 he)
    · rcases Nat.eq_or_lt_of_le e2 with h | h
      · exact Or.inl (by omega)
      · exact Or.inr (e4 h)
  have hmem : ((findRowBeginA cfg.col_sep cfg.row_sep buf pos (pos - lb)).1,
      (findRowEndA cfg.col_sep cfg.row_sep buf pos (ub - pos)).1) ∈ rows cfg.row_sep buf :=
    (mem_rows_iff cfg.row_sep buf).mpr ⟨by omega, hrowstart, hendeq⟩
  refine ⟨b1, b2, e1, e2, hendcase, hrowstart, hint, hmem, ?_⟩
  rw [b5, e5, rowStarts,
    seps_append cfg.col_sep buf b2 e1]
  simp

/-- Once the window is empty the loop returns it unchanged. -/
theorem bsLoopA_done (cfg : Config) (key buf : List Nat) :
    ∀ fuel lb ub, ub ≤ lb → bsLoopA cfg key buf fuel lb ub = .ok (lb, ub) := by
  intro fuel lb ub h
  cases fuel with
  | zero => rfl
  | succ fuel =>
    show (if lb < ub then _ else Except.ok (lb, ub)) = Except.ok (lb, ub)
    rw [if_neg (by omega)]

/-! ### Correctness of the binary-search loop -/

/-- Invariant of the binary-search loop.  Starting from a window
`[lb, ub)` whose outside is already classified (rows before `lb` compare
below the key, rows at or after `ub` compare at or above it), the loop
returns a final pair `(lb2, ub2)` that classifies every row, with
`lb2 = ub2` except in the degenerate no-trailing-separator case where
`lb2 = ub2 + 1 = buf.length + 1`. -/
theorem bsLoopA_spec (cfg : Config) (key buf : List Nat)
    (hsort : SortedBuf cfg buf) (hcols : ColsOk cfg buf) :
    ∀ fuel lb ub, ub - lb ≤ fuel → lb ≤ ub → ub ≤ buf.length →
      IsRowStart cfg.row_sep buf lb →
      (lb < ub → ub = buf.length ∨ buf.getD (ub - 1) 0 = cfg.row_sep) →
      (∀ r ∈ rows cfg.row_sep buf, r.1 < lb →
        cmpBytes (transform cfg) key (kcolR cfg buf r) < 0) →
      (∀ r ∈ rows cfg.row_sep buf, ub ≤ r.1 →
        0 ≤ cmpBytes (transform cfg) key (kcolR cfg buf r)) →
      ∃ lb2 ub2, bsLoopA cfg key buf fuel lb ub = .ok (lb2, ub2) ∧
        lb ≤ lb2 ∧ lb2 ≤ buf.length + 1 ∧
        (lb2 = ub2 ∨ (lb2 = ub2 + 1 ∧ ub2 = buf.length ∧ 0 < buf.length ∧
          buf.getD (buf.length - 1) 0 ≠ cfg.row_sep)) ∧
        (IsRowStart cfg.row_sep buf lb2 ∨ lb2 = buf.length + 1) ∧
        (∀ r ∈ rows cfg.row_sep buf, r.1 < lb2 →
          cmpBytes (transform cfg) key (kcolR cfg buf r) < 0) ∧
        (∀ r ∈ rows cfg.row_sep buf, lb2 ≤ r.1 →
          0 ≤ cmpBytes (transform cfg) key (kcolR cfg buf r)) ∧
        ((∀ r ∈ rows cfg.row_sep buf,
          cmpBytes (transform cfg) key (kcolR cfg buf r) < 0) → ub2 = ub) := by
  intro fuel
  induction fuel with
  | zero =>
    intro lb ub hf h1 h2 hstart h4 hlow hhigh
    have hlu : lb = ub := by omega
    subst hlu
    exact ⟨lb, lb, rfl, le_refl _, by omega, Or.inl rfl, Or.inl hstart, hlow, hhigh,
      fun _ => rfl⟩
  | succ fuel ih =>
    intro lb ub hf h1 h2 hstart h4 hlow hhigh
    by_cases hlt : lb < ub
    · have hdiv : (ub - lb) / 2 < ub - lb := Nat.div_lt_self (by omega) (by omega)
      have hposlt : lb + (ub - lb) / 2 < ub := by omega
      obtain ⟨p1, p2, p3, p4, p5, p6, p7, p8, p9⟩ :=
        probe_spec cfg buf hstart (by omega : lb ≤ lb + (ub - lb) / 2) hposlt h2 (h4 hlt)
      have hcolsrow : cfg.col ≤ numCols cfg.col_sep buf
          (findRowBeginA cfg.col_sep cfg.row_sep buf (lb + (ub - lb) / 2)
            (lb + (ub - lb) / 2 - lb)).1
          (findRowEndA cfg.col_sep cfg.row_sep buf (lb + (ub - lb) / 2)
            (ub - (lb + (ub - lb) / 2))).1 := hcols _ p8
      have hgc : GetColumn buf
          (((findRowBeginA cfg.col_sep cfg.row_sep buf (lb + (ub - lb) / 2)
              (lb + (ub - lb) / 2 - lb)).1 ::
            (findRowBeginA cfg.col_sep cfg.row_sep buf (lb + (ub - lb) / 2)
              (lb + (ub - lb) / 2 - lb)).2) ++
           (findRowEndA cfg.col_sep cfg.row_sep buf (lb + (ub - lb) / 2)
              (ub - (lb + (ub - lb) / 2))).2 ++
           [(findRowEndA cfg.col_sep cfg.row_sep buf (lb + (ub - lb) / 2)
              (ub - (lb + (ub - lb) / 2))).1 + 1])
          cfg.col
          (findRowBeginA cfg.col_sep cfg.row_sep buf (lb + (ub - lb) / 2)
            (lb + (ub - lb) / 2 - lb)).1
          (findRowEndA cfg.col_sep cfg.row_sep buf (lb + (ub - lb) / 2)
            (ub - (lb + (ub - lb) / 2))).1 =
          .ok (kcol cfg buf
            (findRowBeginA cfg.col_sep cfg.row_sep buf (lb + (ub - lb) / 2)
              (lb + (ub - lb) / 2 - lb)).1
            (findRowEndA cfg.col_sep cfg.row_sep buf (lb + (ub - lb) / 2)
              (ub - (lb + (ub - lb) / 2))).1) := by
        rw [p9]
        exact getColumn_rowStarts cfg buf hcolsrow
      have hstep : bsLoopA cfg key buf (fuel + 1) lb ub =
          (if 0 ≤ cmpBytes (transform cfg) key (kcol cfg buf
              (findRowBeginA cfg.col_sep cfg.row_sep buf (lb + (ub - lb) / 2)
                (lb + (ub - lb) / 2 - lb)).1
              (findRowEndA cfg.col_sep cfg.row_sep buf (lb + (ub - lb) / 2)
                (ub - (lb + (ub - lb) / 2))).1) then
            bsLoopA cfg key buf fuel lb
              (findRowBeginA cfg.col_sep cfg.row_sep buf (lb + (ub - lb) / 2)
                (lb + (ub - lb) / 2 - lb)).1
          else
            bsLoopA cfg key buf fuel
              ((findRowEndA cfg.col_sep cfg.row_sep buf (lb + (ub - lb) / 2)
                (ub - (lb + (ub - lb) / 2))).1 + 1) ub) := by
        simp only [bsLoopA]
        rw [if_pos hlt, hgc]
      set s := (findRowBeginA cfg.col_sep cfg.row_sep buf (lb + (ub - lb) / 2)
        (lb + (ub - lb) / 2 - lb)).1 with hsdef
      set e := (findRowEndA cfg.col_sep cfg.row_sep buf (lb + (ub - lb) / 2)
        (ub - (lb + (ub - lb) / 2))).1 with hedef
      by_cases hcmp : 0 ≤ cmpBytes (transform cfg) key (kcol cfg buf s e)
      · -- probed column is ≥ the key: shrink ub to the probed row's start
        rw [if_pos hcmp] at hstep
        have hhigh2 : ∀ r ∈ rows cfg.row_sep buf, s ≤ r.1 →
            0 ≤ cmpBytes (transform cfg) key (kcolR cfg buf r) := by
          intro r hr hge
          rcases Nat.eq_or_lt_of_le hge with hq | hq
          · have hre : r = (s, e) := rows_eq_of_start cfg.row_sep buf hr p8 hq.symm
            rw [hre]
            exact hcmp
          · have hcle := rows_col_le cfg buf hsort p8 hr (le_of_lt hq)
            exact cmpBytes_trans (transform cfg) key (kcol cfg buf s e)
              (kcolR cfg buf r) hcmp hcle
        have h4' : lb < s → s = buf.length ∨ buf.getD (s - 1) 0 = cfg.row_sep := by
          intro hlbs
          rcases p6 with h | h
          · omega
          · exact Or.inr h.2
        obtain ⟨lb2, ub2, hrun, q1, q2, q3, q4, q5, q6, q7⟩ :=
          ih lb s (by omega) p1 (by omega) hstart h4' hlow hhigh2
        refine ⟨lb2, ub2, by rw [hstep]; exact hrun, q1, q2, q3, q4, q5, q6, ?_⟩
        intro hall
        exfalso
        have := hall (s, e) p8
        have : cmpBytes (transform cfg) key (kcol cfg buf s e) < 0 := this
        omega
      · -- probed column is < the key: advance lb past the probed row
        rw [if_neg hcmp] at hstep
        have hcmplt : cmpBytes (transform cfg) key (kcol cfg buf s e) < 0 := by omega
        have hlow2 : ∀ r ∈ rows cfg.row_sep buf, r.1 < e + 1 →
            cmpBytes (transform cfg) key (kcolR cfg buf r) < 0 := by
          intro r hr hlt2
          by_cases hrlb : r.1 < lb
          · exact hlow r hr hrlb
          · have hrs : r.1 ≤ s := by
              by_contra hc
              push_neg at hc
              obtain ⟨-, hstart_r, -⟩ := (mem_rows_iff cfg.row_sep buf).mp hr
              exact no_start_in_row cfg.row_sep buf p7 r.1 hstart_r hc (by omega)
            have hcle := rows_col_le cfg buf hsort hr p8 hrs
            exact cmpBytes_lt_trans (transform cfg) key (kcol cfg buf s e)
              (kcolR cfg buf r) hcmplt hcle
        by_cases hdeg : e < ub
        · -- the probed row ends inside the window
          have hee : e = rowEndPos cfg.row_sep buf s :=
            ((mem_rows_iff cfg.row_sep buf).mp p8).2.2
          have hsep_e : buf.getD e 0 = cfg.row_sep := by
            have he_lt : rowEndPos cfg.row_sep buf s < buf.length := by omega
            rw [hee]
            exact rowEndPos_sep cfg.row_sep buf he_lt
          have hstart2 : IsRowStart cfg.row_sep buf (e + 1) :=
            Or.inr ⟨by omega, by simpa using hsep_e⟩
          obtain ⟨lb2, ub2, hrun, q1, q2, q3, q4, q5, q6, q7⟩ :=
            ih (e + 1) ub (by omega) (by omega) h2 hstart2 (fun _ => h4 hlt) hlow2 hhigh
          exact ⟨lb2, ub2, by rw [hstep]; exact hrun, by omega, q2, q3, q4, q5, q6, q7⟩
        · -- degenerate: the probed row runs to the buffer end without separator
          have he_ub : e = ub := by omega
          have hub_n : ub = buf.length := by
            rcases p5 with h | h
            · omega
            · exact h
          have hrun : bsLoopA cfg key buf fuel (e + 1) ub = .ok (e + 1, ub) :=
            bsLoopA_done cfg key buf fuel (e + 1) ub (by omega)
          refine ⟨e + 1, ub, by rw [hstep]; exact hrun, by omega, by omega, ?_, ?_, ?_, ?_, ?_⟩
          · refine Or.inr ⟨by omega, hub_n, by omega, ?_⟩
            have := p7 (buf.length - 1) (by omega) (by omega)
            exact this
          · exact Or.inr (by omega)
          · intro r hr hlt2
            exact hlow2 r hr (by omega)
          · intro r hr hge
            have := ((mem_rows_iff cfg.row_sep buf).mp hr).1
            omega
          · intro _
            rfl
    · have hlu : lb = ub := by omega
      subst hlu
      exact ⟨lb, lb, bsLoopA_done cfg key buf (fuel + 1) lb lb (le_refl _), le_refl _,
        by omega, Or.inl rfl, Or.inl hstart, hlow, hhigh, fun _ => rfl⟩

/-! ### Correctness of the forward emit loop -/

/-- On a run that is pairwise `R`-related, a test that transfers backwards
along `R` makes `takeWhile` and `filter` agree. -/
theorem takeWhile_eq_filter {α : Type} (R : α → α → Prop) (p : α → Bool) :
    ∀ l : List α, List.Pairwise R l →
      (∀ a b, R a b → p b = true → p a = true) →
      l.takeWhile p = l.filter p := by
  intro l
  induction l with
  | nil => intro _ _; rfl
  | cons x xs ih =>
    intro hpw hcl
    obtain ⟨hx, hxs⟩ := List.pairwise_cons.mp hpw
    by_cases hp : p x = true
    · rw [List.takeWhile_cons_of_pos hp, List.filter_cons_of_pos hp, ih hxs hcl]
    · rw [List.takeWhile_cons_of_neg hp, List.filter_cons_of_neg hp]
      symm
      rw [List.filter_eq_nil_iff]
      intro a ha hpa
      exact hp (hcl x a (hx a ha) hpa)

/-- The row resolved by a forward scan from a row start `lb` is the row of
the decomposition, with the canonical column starts. -/
theorem scan_rowEnd_eq (cs rs : Nat) (buf : List Nat) (lb : Nat) :
    (findRowEndA cs rs buf lb (buf.length - lb)).1 = rowEndPos rs buf lb := by
  rw [rowEndA_eq_fst]
  rfl

theorem scan_colStarts (cs rs : Nat) (buf : List Nat) (lb : Nat) :
    lb :: (findRowEndA cs rs buf lb (buf.length - lb)).2 ++
      [(findRowEndA cs rs buf lb (buf.length - lb)).1 + 1] =
    rowStarts cs buf lb (findRowEndA cs rs buf lb (buf.length - lb)).1 := by
  obtain ⟨-, -, -, -, e5⟩ := findRowEndA_spec cs rs buf (buf.length - lb) lb
  rw [rowStarts, e5]

/-- The forward emit loop emits exactly the longest matching run of the rows
at and after `lb`, provided those rows have enough columns. -/
theorem scanLoopA_eq (cfg : Config) (key buf : List Nat) :
    ∀ fuel lb, buf.length - lb ≤ fuel →
      (∀ r ∈ rowsFrom cfg.row_sep buf lb, cfg.col ≤ numCols cfg.col_sep buf r.1 r.2) →
      scanLoopA cfg key buf buf.length fuel lb =
        .ok ((rowsFrom cfg.row_sep buf lb).takeWhile
          (fun r => matchKey cfg key (kcolR cfg buf r))) := by
  intro fuel
  induction fuel with
  | zero =>
    intro lb hf _
    rw [rowsFrom_eq_nil cfg.row_sep buf (by omega)]
    rfl
  | succ fuel ih =>
    intro lb hf hcols
    by_cases hlb : lb < buf.length
    · have hrcons := rowsFrom_eq_cons cfg.row_sep buf hlb
      have hhead : (lb, rowEndPos cfg.row_sep buf lb) ∈ rowsFrom cfg.row_sep buf lb := by
        rw [hrcons]; exact List.mem_cons_self _ _
      have hck : cfg.col ≤ numCols cfg.col_sep buf lb (rowEndPos cfg.row_sep buf lb) :=
        hcols _ hhead
      have he := scan_rowEnd_eq cfg.col_sep cfg.row_sep buf lb
      have hgc : GetColumn buf
          (lb :: (findRowEndA cfg.col_sep cfg.row_sep buf lb (buf.length - lb)).2 ++
            [(findRowEndA cfg.col_sep cfg.row_sep buf lb (buf.length - lb)).1 + 1])
          cfg.col lb (findRowEndA cfg.col_sep cfg.row_sep buf lb (buf.length - lb)).1 =
          .ok (kcol cfg buf lb (rowEndPos cfg.row_sep buf lb)) := by
        rw [scan_colStarts, he]
        exact getColumn_rowStarts cfg buf hck
      have hstep : scanLoopA cfg key buf buf.length (fuel + 1) lb =
          (if matchKey cfg key (kcol cfg buf lb (rowEndPos cfg.row_sep buf lb)) then
            match scanLoopA cfg key buf buf.length fuel
                ((findRowEndA cfg.col_sep cfg.row_sep buf lb (buf.length - lb)).1 + 1) with
            | .error e => .error e
            | .ok rest =>
              .ok ((lb, (findRowEndA cfg.col_sep cfg.row_sep buf lb (buf.length - lb)).1) :: rest)
          else .ok []) := by
        simp only [scanLoopA]
        rw [if_pos hlb, hgc]
      rw [hstep, he, hrcons]
      have hge := rowEndPos_ge cfg.row_sep buf lb
      have htail := ih (rowEndPos cfg.row_sep buf lb + 1) (by omega)
        (by intro r hr; exact hcols r (by rw [hrcons]; exact List.mem_cons_of_mem _ hr))
      by_cases hm : matchKey cfg key (kcol cfg buf lb (rowEndPos cfg.row_sep buf lb)) = true
      · rw [if_pos hm, htail,
          List.takeWhile_cons_of_pos (by exact hm)]
      · rw [if_neg hm, List.takeWhile_cons_of_neg (by exact hm)]
    · rw [rowsFrom_eq_nil cfg.row_sep buf (by omega)]
      show (if lb < buf.length then _ else Except.ok []) = _
      rw [if_neg hlb]
      rfl

/-! ### Correctness of the check loop -/

/-- The check loop seen at the level of the row decomposition: walk the rows,
failing on the first key column that compares below the previous one. -/
def checkRows (cfg : Config) (buf : List Nat) : List Nat → List (Nat × Nat) → Except Err Unit
  | _, [] => .ok ()
  | prev, r :: rest =>
    if cmpBytes (transform cfg) prev (kcolR cfg buf r) < 0 then
      .error (.unordered (slice buf r.1 r.2))
    else checkRows cfg buf (kcolR cfg buf r) rest

theorem checkLoopA_eq (cfg : Config) (buf : List Nat) :
    ∀ fuel lb prev, buf.length - lb ≤ fuel →
      (∀ r ∈ rowsFrom cfg.row_sep buf lb, cfg.col ≤ numCols cfg.col_sep buf r.1 r.2) →
      checkLoopA cfg buf buf.length fuel lb prev =
        checkRows cfg buf prev (rowsFrom cfg.row_sep buf lb) := by
  intro fuel
  induction fuel with
  | zero =>
    intro lb prev hf _
    rw [rowsFrom_eq_nil cfg.row_sep buf (by omega)]
    rfl
  | succ fuel ih =>
    intro lb prev hf hcols
    by_cases hlb : lb < buf.length
    · have hrcons := rowsFrom_eq_cons cfg.row_sep buf hlb
      have hhead : (lb, rowEndPos cfg.row_sep buf lb) ∈ rowsFrom cfg.row_sep buf lb := by
        rw [hrcons]; exact List.mem_cons_self _ _
      have hck : cfg.col ≤ numCols cfg.col_sep buf lb (rowEndPos cfg.row_sep buf lb) :=
        hcols _ hhead
      have he := scan_rowEnd_eq cfg.col_sep cfg.row_sep buf lb
      have hgc : GetColumn buf
          (lb :: (findRowEndA cfg.col_sep cfg.row_sep buf lb (buf.length - lb)).2 ++
            [(findRowEndA cfg.col_sep cfg.row_sep buf lb (buf.length - lb)).1 + 1])
          cfg.col lb (findRowEndA cfg.col_sep cfg.row_sep buf lb (buf.length - lb)).1 =
          .ok (kcol cfg buf lb (rowEndPos cfg.row_sep buf lb)) := by
        rw [scan_colStarts, he]
        exact getColumn_rowStarts cfg buf hck
      have hstep : checkLoopA cfg buf buf.length (fuel + 1) lb prev =
          (if cmpBytes (transform cfg) prev
              (kcol cfg buf lb (rowEndPos cfg.row_sep buf lb)) < 0 then
            .error (.unordered
              (slice buf lb (findRowEndA cfg.col_sep cfg.row_sep buf lb (buf.length - lb)).1))
          else checkLoopA cfg buf buf.length fuel
            ((findRowEndA cfg.col_sep cfg.row_sep buf lb (buf.length - lb)).1 + 1)
            (kcol cfg buf lb (rowEndPos cfg.row_sep buf lb))) := by
        simp only [checkLoopA]
        rw [if_pos hlb, hgc]
      rw [hstep, he, hrcons]
      have hge := rowEndPos_ge cfg.row_sep buf lb
      show _ = checkRows cfg buf prev ((lb, rowEndPos cfg.row_sep buf lb) :: _)
      rw [checkRows]
      simp only [kcolR]
      by_cases hc : cmpBytes (transform cfg) prev
          (kcol cfg buf lb (rowEndPos cfg.row_sep buf lb)) < 0
      · rw [if_pos hc, if_pos hc]
      · rw [if_neg hc, if_neg hc,
          ih (rowEndPos cfg.row_sep buf lb + 1) _ (by omega)
            (by intro r hr; exact hcols r (by rw [hrcons]; exact List.mem_cons_of_mem _ hr))]
    · rw [rowsFrom_eq_nil cfg.row_sep buf (by omega)]
      show (if lb < buf.length then _ else Except.ok ()) = _
      rw [if_neg hlb]
      rfl

/-- `checkRows` succeeds exactly when the seeded column sequence is
non-decreasing. -/
theorem checkRows_ok_iff (cfg : Config) (buf : List Nat) :
    ∀ l prev, (checkRows cfg buf prev l = .ok () ↔
      List.Chain' (fun a b => 0 ≤ cmpBytes (transform cfg) a b)
        (prev :: l.map (kcolR cfg buf))) := by
  intro l
  induction l with
  | nil => intro prev; simp [checkRows]
  | cons r rest ih =>
    intro prev
    rw [checkRows, List.map_cons, List.chain'_cons]
    by_cases hc : cmpBytes (transform cfg) prev (kcolR cfg buf r) < 0
    · rw [if_pos hc]
      constructor
      · intro h
        exact absurd h (by simp)
      · rintro ⟨h1, -⟩
        omega
    · rw [if_neg hc, ih (kcolR cfg buf r)]
      constructor
      · intro h
        exact ⟨by omega, h⟩
      · rintro ⟨-, h⟩
        exact h

/-- `checkRows` stops at the first violation and reports that row. -/
theorem checkRows_err (cfg : Config) (buf : List Nat) :
    ∀ pre prev b post,
      checkRows cfg buf prev pre = .ok () →
      cmpBytes (transform cfg) ((pre.map (kcolR cfg buf)).getLastD prev)
        (kcolR cfg buf b) < 0 →
      checkRows cfg buf prev (pre ++ b :: post) =
        .error (.unordered (slice buf b.1 b.2)) := by
  intro pre
  induction pre with
  | nil =>
    intro prev b post _ hviol
    simp only [List.map_nil, List.getLastD_nil] at hviol
    rw [List.nil_append, checkRows, if_pos hviol]
  | cons r pre' ih =>
    intro prev b post hok hviol
    rw [checkRows] at hok
    by_cases hc : cmpBytes (transform cfg) prev (kcolR cfg buf r) < 0
    · rw [if_pos hc] at hok
      exact absurd hok (by simp)
    · rw [if_neg hc] at hok
      rw [List.cons_append, checkRows, if_neg hc]
      refine ih (kcolR cfg buf r) b post hok ?_
      rw [List.map_cons, List.getLastD_cons] at hviol
      exact hviol

/-! ### The search path end to end -/

theorem matchKey_false_of_lt (cfg : Config) (key c : List Nat)
    (h : cmpBytes (transform cfg) key c < 0) : matchKey cfg key c = false := by
  unfold matchKey
  by_cases hE : cfg.exact_match = true
  · rw [if_pos hE, decide_eq_false (by omega : ¬ cmpBytes (transform cfg) key c = 0)]
  · rw [if_neg hE]
    by_cases hp : isPrefixB (transform cfg) key c = true
    · exact absurd (isPrefixB_cmp _ _ _ hp) (by omega)
    · simpa using hp

theorem matchKey_transfer (cfg : Config) (key a b : List Nat)
    (h1 : 0 ≤ cmpBytes (transform cfg) a b)
    (h2 : 0 ≤ cmpBytes (transform cfg) key a)
    (h3 : matchKey cfg key b = true) : matchKey cfg key a = true := by
  unfold matchKey at h3 ⊢
  by_cases hE : cfg.exact_match = true
  · rw [if_pos hE] at h3 ⊢
    simp only [decide_eq_true_eq] at h3 ⊢
    have hmap := (cmpBytes_eq_zero_iff (transform cfg) key b).mp h3
    have hab : cmpBytes (transform cfg) a key = cmpBytes (transform cfg) a b := by
      rw [cmpBytes_map, cmpBytes_map (transform cfg) a b, hmap]
    exact cmpBytes_antisymm (transform cfg) key a h2 (by omega)
  · rw [if_neg hE] at h3 ⊢
    exact isPrefixB_interval (transform cfg) key a b h2 h1 h3

/-- Search mode emits exactly the rows whose key column passes the
configured match test, in file order. -/
theorem run_search_eq_filter (cfg : Config) (buf key : List Nat)
    (hcheck : cfg.check = false)
    (hsort : SortedBuf cfg buf) (hcols : ColsOk cfg buf) :
    Run cfg buf key = .ok ((rows cfg.row_sep buf).filter
      (fun r => matchKey cfg key (kcolR cfg buf r))) := by
  by_cases hn : buf.length = 0
  · have hrows : rows cfg.row_sep buf = [] := by
      rw [rows]; exact rowsFrom_eq_nil cfg.row_sep buf (by omega)
    rw [Run, RunAt, if_pos hn, hrows]
    rfl
  · obtain ⟨lb2, ub2, hrun, q1, q2, q3, q4, q5, q6, q7⟩ :=
      bsLoopA_spec cfg key buf hsort hcols buf.length 0 buf.length (by omega) (by omega)
        (le_refl _) (Or.inl rfl) (fun _ => Or.inl rfl)
        (fun r _ hlt => absurd hlt (by omega))
        (fun r hr hge => absurd (((mem_rows_iff cfg.row_sep buf).mp hr).1) (by omega))
    rw [Run, RunAt, if_neg hn, if_neg (by simp [hcheck]), hrun]
    by_cases hle : lb2 ≤ buf.length
    · have hst : IsRowStart cfg.row_sep buf lb2 := by
        rcases q4 with h | h
        · exact h
        · omega
      obtain ⟨pre, hsplit, hpre⟩ :=
        rowsFrom_split cfg.row_sep buf hst hle buf.length 0 (by omega) (Nat.zero_le _)
      have hsplit' : rows cfg.row_sep buf = pre ++ rowsFrom cfg.row_sep buf lb2 := hsplit
      have hcolsFrom : ∀ r ∈ rowsFrom cfg.row_sep buf lb2,
          cfg.col ≤ numCols cfg.col_sep buf r.1 r.2 := by
        intro r hr
        exact hcols r (by rw [hsplit']; exact List.mem_append_right _ hr)
      show scanLoopA cfg key buf buf.length (buf.length - lb2) lb2 = _
      rw [scanLoopA_eq cfg key buf (buf.length - lb2) lb2 (le_refl _) hcolsFrom]
      congr 1
      have hfilpre : pre.filter (fun r => matchKey cfg key (kcolR cfg buf r)) = [] := by
        rw [List.filter_eq_nil_iff]
        intro r hr hm
        have hrrows : r ∈ rows cfg.row_sep buf := by
          rw [hsplit']; exact List.mem_append_left _ hr
        rw [matchKey_false_of_lt cfg key _ (q5 r hrrows (hpre r hr))] at hm
        exact absurd hm (by simp)
      have hsub : List.Sublist (rowsFrom cfg.row_sep buf lb2) (rows cfg.row_sep buf) := by
        rw [hsplit']; exact List.sublist_append_right _ _
      have hpw1 := List.Pairwise.sublist hsub (sorted_pairwise cfg buf hsort)
      have hpw2 : (rowsFrom cfg.row_sep buf lb2).Pairwise
          (fun a _ => 0 ≤ cmpBytes (transform cfg) key (kcolR cfg buf a)) := by
        refine List.pairwise_of_forall_mem_list ?_
        intro a ha b hb
        have hmem : a ∈ rows cfg.row_sep buf := by
          rw [hsplit']; exact List.mem_append_right _ ha
        have hge : lb2 ≤ a.1 := by
          obtain ⟨s, e⟩ := a
          exact ((mem_rowsFrom_iff cfg.row_sep buf lb2).mp ha).1
        exact q6 a hmem hge
      rw [takeWhile_eq_filter _ _ _ (hpw1.and hpw2)
        (fun a b hab hpb => matchKey_transfer cfg key _ _ hab.1 hab.2 hpb),
        hsplit', List.filter_append, hfilpre, List.nil_append]
    · have hempty : rowsFrom cfg.row_sep buf lb2 = [] :=
        rowsFrom_eq_nil cfg.row_sep buf (by omega)
      show scanLoopA cfg key buf buf.length (buf.length - lb2) lb2 = _
      rw [scanLoopA_eq cfg key buf (buf.length - lb2) lb2 (le_refl _)
        (by rw [hempty]; intro r hr; exact absurd hr (List.not_mem_nil r)), hempty]
      have hfil : (rows cfg.row_sep buf).filter
          (fun r => matchKey cfg key (kcolR cfg buf r)) = [] := by
        rw [List.filter_eq_nil_iff]
        intro r hr hm
        have hlt := q5 r hr (by have := ((mem_rows_iff cfg.row_sep buf).mp hr).1; omega)
        rw [matchKey_false_of_lt cfg key _ hlt] at hm
        exact absurd hm (by simp)
      rw [hfil]
      rfl

/-! ### Claim theorems -/

/-- A small concrete buffer for witnesses: rows `a<TAB>1`, `ab<TAB>2`,
`b<TAB>3`, newline-terminated, sorted by column 1. -/
def bufW : List Nat := [97, 9, 49, 10, 97, 98, 9, 50, 10, 98, 9, 51, 10]

/-- Exact-match configuration (tab columns, newline rows, key column 1). -/
def cfgExact : Config := ⟨9, 10, false, true, false, 1⟩

/-- Default prefix-match configuration. -/
def cfgPrefix : Config := ⟨9, 10, false, false, false, 1⟩

/-- Check-mode configuration. -/
def cfgCheck : Config := ⟨9, 10, true, false, false, 1⟩

/-- Claim C1: on a buffer sorted by the key column in which every row has at
least the configured number of columns, exact-match search emits exactly the
rows whose key column compares equal to the key under the configured
transform, in original file order, and no others. -/
theorem claim1_exact_search (cfg : Config) (buf key : List Nat)
    (hcheck : cfg.check = false) (hexact : cfg.exact_match = true)
    (hsort : SortedBuf cfg buf) (hcols : ColsOk cfg buf) :
    Run cfg buf key = .ok ((rows cfg.row_sep buf).filter
      (fun r => decide (cmpBytes (transform cfg) key (kcolR cfg buf r) = 0))) := by
  rw [run_search_eq_filter cfg buf key hcheck hsort hcols]
  congr 1
  refine List.filter_congr ?_
  intro r _
  unfold matchKey
  rw [if_pos hexact]

/-- Witness for C1: searching `a` in exact mode on the witness buffer. -/
theorem claim1_exact_search_witness :
    cfgExact.check = false ∧ cfgExact.exact_match = true ∧
    SortedBuf cfgExact bufW ∧ ColsOk cfgExact bufW ∧
    Run cfgExact bufW [97] = .ok ((rows cfgExact.row_sep bufW).filter
      (fun r => decide (cmpBytes (transform cfgExact) [97] (kcolR cfgExact bufW r) = 0))) :=
  ⟨rfl, rfl, by decide, by decide,
    claim1_exact_search cfgExact bufW [97] rfl rfl (by decide) (by decide)⟩

/-- Claim C2: on a sorted buffer with enough columns in every row, default
(prefix) search emits exactly the rows whose key column has the key as a
prefix under the configured transform, in original file order. -/
theorem claim2_prefix_search (cfg : Config) (buf key : List Nat)
    (hcheck : cfg.check = false) (hexact : cfg.exact_match = false)
    (hsort : SortedBuf cfg buf) (hcols : ColsOk cfg buf) :
    Run cfg buf key = .ok ((rows cfg.row_sep buf).filter
      (fun r => isPrefixB (transform cfg) key (kcolR cfg buf r))) := by
  rw [run_search_eq_filter cfg buf key hcheck hsort hcols]
  congr 1
  refine List.filter_congr ?_
  intro r _
  unfold matchKey
  rw [if_neg (by simp [hexact])]

/-- Witness for C2: searching `a` in prefix mode matches rows `a` and `ab`. -/
theorem claim2_prefix_search_witness :
    cfgPrefix.check = false ∧ cfgPrefix.exact_match = false ∧
    SortedBuf cfgPrefix bufW ∧ ColsOk cfgPrefix bufW ∧
    Run cfgPrefix bufW [97] = .ok ((rows cfgPrefix.row_sep bufW).filter
      (fun r => isPrefixB (transform cfgPrefix) [97] (kcolR cfgPrefix bufW r))) :=
  ⟨rfl, rfl, by decide, by decide,
    claim2_prefix_search cfgPrefix bufW [97] rfl rfl (by decide) (by decide)⟩

/-- Claim C3 counterexample: on the sorted one-byte buffer `a` (one row, no
trailing row separator) with key `b`, the binary-search loop ends with
`lb = 2` and `ub = 1`, so it neither reaches `lb = ub` nor leaves `lb` at
the buffer end (1) although no row's key column is ≥ the key. -/
theorem claim3_counterexample :
    SortedBuf cfgPrefix [97] ∧ ColsOk cfgPrefix [97] ∧
    [97] ≠ ([] : List Nat) ∧
    bsLoopA cfgPrefix [98] [97] 1 0 1 = .ok (2, 1) ∧
    (2 : Nat) ≠ 1 ∧
    (∀ r ∈ rows cfgPrefix.row_sep [97],
      cmpBytes (transform cfgPrefix) [98] (kcolR cfgPrefix [97] r) < 0) ∧
    (2 : Nat) ≠ List.length [97] := by decide

/-- Claim C3 (amended): on a non-empty sorted buffer with enough columns the
loop ends with `lb = ub` — except when every row's key column compares below
the key and the final row lacks a terminating row separator, in which case
`lb = ub + 1` with `ub` the buffer end.  When some row's key column is ≥ the
key, `lb = ub` is the offset of the first such row; when none is, `lb` is
the buffer end or one past it. -/
theorem claim3_lower_bound (cfg : Config) (buf key : List Nat)
    (hsort : SortedBuf cfg buf) (hcols : ColsOk cfg buf) (hne : buf.length ≠ 0) :
    ∃ lb2 ub2, bsLoopA cfg key buf buf.length 0 buf.length = .ok (lb2, ub2) ∧
      (lb2 = ub2 ∨ (lb2 = ub2 + 1 ∧ ub2 = buf.length ∧
        buf.getD (buf.length - 1) 0 ≠ cfg.row_sep ∧
        ∀ r ∈ rows cfg.row_sep buf,
          cmpBytes (transform cfg) key (kcolR cfg buf r) < 0)) ∧
      ((∃ r ∈ rows cfg.row_sep buf,
          0 ≤ cmpBytes (transform cfg) key (kcolR cfg buf r)) →
        lb2 = ub2 ∧ ∃ r ∈ rows cfg.row_sep buf, r.1 = lb2 ∧
          0 ≤ cmpBytes (transform cfg) key (kcolR cfg buf r) ∧
          ∀ r' ∈ rows cfg.row_sep buf,
            0 ≤ cmpBytes (transform cfg) key (kcolR cfg buf r') → lb2 ≤ r'.1) ∧
      ((∀ r ∈ rows cfg.row_sep buf,
          cmpBytes (transform cfg) key (kcolR cfg buf r) < 0) →
        lb2 = buf.length ∨ lb2 = buf.length + 1) := by
  obtain ⟨lb2, ub2, hrun, q1, q2, q3, q4, q5, q6, q7⟩ :=
    bsLoopA_spec cfg key buf hsort hcols buf.length 0 buf.length (by omega) (by omega)
      (le_refl _) (Or.inl rfl) (fun _ => Or.inl rfl)
      (fun r _ hlt => absurd hlt (by omega))
      (fun r hr hge => absurd (((mem_rows_iff cfg.row_sep buf).mp hr).1) (by omega))
  refine ⟨lb2, ub2, hrun, ?_, ?_, ?_⟩
  · rcases q3 with h | ⟨h1, h2, h3, h4⟩
    · exact Or.inl h
    · refine Or.inr ⟨h1, h2, h4, ?_⟩
      intro r hr
      exact q5 r hr (by have := ((mem_rows_iff cfg.row_sep buf).mp hr).1; omega)
  · rintro ⟨r0, hr0, hge0⟩
    have hr0lt : r0.1 < buf.length := ((mem_rows_iff cfg.row_sep buf).mp hr0).1
    have hlb2r0 : lb2 ≤ r0.1 := by
      by_contra hc
      push_neg at hc
      have := q5 r0 hr0 hc
      omega
    have hlb2n : lb2 < buf.length := by omega
    have hst : IsRowStart cfg.row_sep buf lb2 := by
      rcases q4 with h | h
      · exact h
      · omega
    have heq : lb2 = ub2 := by
      rcases q3 with h | ⟨h1, h2, -⟩
      · exact h
      · omega
    have hmem : (lb2, rowEndPos cfg.row_sep buf lb2) ∈ rows cfg.row_sep buf :=
      (mem_rows_iff cfg.row_sep buf).mpr ⟨hlb2n, hst, rfl⟩
    refine ⟨heq, (lb2, rowEndPos cfg.row_sep buf lb2), hmem, rfl,
      q6 _ hmem (le_refl _), ?_⟩
    intro r' hr' hge'
    by_contra hc
    push_neg at hc
    have := q5 r' hr' hc
    omega
  · intro hall
    by_cases hlb2n : lb2 < buf.length
    · exfalso
      have hst : IsRowStart cfg.row_sep buf lb2 := by
        rcases q4 with h | h
        · exact h
        · omega
      have hmem : (lb2, rowEndPos cfg.row_sep buf lb2) ∈ rows cfg.row_sep buf :=
        (mem_rows_iff cfg.row_sep buf).mpr ⟨hlb2n, hst, rfl⟩
      have h1 := q6 _ hmem (le_refl _)
      have h2 := hall _ hmem
      omega
    · omega

/-- Witness for C3 (amended): key `ab` on the witness buffer. -/
theorem claim3_lower_bound_witness :
    SortedBuf cfgPrefix bufW ∧ ColsOk cfgPrefix bufW ∧ bufW.length ≠ 0 ∧
    (∃ lb2 ub2, bsLoopA cfgPrefix [97, 98] bufW bufW.length 0 bufW.length = .ok (lb2, ub2) ∧
      (lb2 = ub2 ∨ (lb2 = ub2 + 1 ∧ ub2 = bufW.length ∧
        bufW.getD (bufW.length - 1) 0 ≠ cfgPrefix.row_sep ∧
        ∀ r ∈ rows cfgPrefix.row_sep bufW,
          cmpBytes (transform cfgPrefix) [97, 98] (kcolR cfgPrefix bufW r) < 0)) ∧
      ((∃ r ∈ rows cfgPrefix.row_sep bufW,
          0 ≤ cmpBytes (transform cfgPrefix) [97, 98] (kcolR cfgPrefix bufW r)) →
        lb2 = ub2 ∧ ∃ r ∈ rows cfgPrefix.row_sep bufW, r.1 = lb2 ∧
          0 ≤ cmpBytes (transform cfgPrefix) [97, 98] (kcolR cfgPrefix bufW r) ∧
          ∀ r' ∈ rows cfgPrefix.row_sep bufW,
            0 ≤ cmpBytes (transform cfgPrefix) [97, 98] (kcolR cfgPrefix bufW r') →
              lb2 ≤ r'.1) ∧
      ((∀ r ∈ rows cfgPrefix.row_sep bufW,
          cmpBytes (transform cfgPrefix) [97, 98] (kcolR cfgPrefix bufW r) < 0) →
        lb2 = bufW.length ∨ lb2 = bufW.length + 1)) :=
  ⟨by decide, by decide, by decide,
    claim3_lower_bound cfgPrefix bufW [97, 98] (by decide) (by decide) (by decide)⟩

/-- Bridge: the check recursion succeeds on the whole row list exactly when
the buffer is sorted; the initial empty previous column makes the first
comparison vacuous. -/
theorem checkRows_ok_iff_sorted (cfg : Config) (buf : List Nat) :
    (checkRows cfg buf [] (rows cfg.row_sep buf) = .ok () ↔ SortedBuf cfg buf) := by
  rw [checkRows_ok_iff, List.chain'_cons']
  constructor
  · rintro ⟨-, h⟩
    exact (List.chain'_map (kcolR cfg buf)).mp h
  · intro h
    refine ⟨?_, (List.chain'_map (kcolR cfg buf)).mpr h⟩
    intro y _
    rw [cmpBytes_nil_left]
    exact Int.ofNat_nonneg _

/-- Claim C4: with every row having at least the configured number of
columns, check mode completes without error iff every adjacent pair of rows
has non-decreasing key columns; the extra initial comparison against an
empty previous column can never fail (the empty column compares ≤
everything). -/
theorem claim4_check_iff (cfg : Config) (buf key : List Nat)
    (hcheck : cfg.check = true) (hcols : ColsOk cfg buf) :
    (Run cfg buf key = .ok [] ↔ SortedBuf cfg buf) ∧
    (∀ c : List Nat, 0 ≤ cmpBytes (transform cfg) [] c) := by
  refine ⟨?_, fun c => by rw [cmpBytes_nil_left]; exact Int.ofNat_nonneg _⟩
  by_cases hn : buf.length = 0
  · have hrows : rows cfg.row_sep buf = [] := by
      rw [rows]; exact rowsFrom_eq_nil cfg.row_sep buf (by omega)
    rw [Run, RunAt, if_pos hn]
    unfold SortedBuf
    rw [hrows]
    exact iff_of_true rfl List.chain'_nil
  · rw [Run, RunAt, if_neg hn, if_pos hcheck,
      checkLoopA_eq cfg buf buf.length 0 [] (by omega) (fun r hr => hcols r hr)]
    have hbridge := checkRows_ok_iff_sorted cfg buf
    rcases hcr : checkRows cfg buf [] (rows cfg.row_sep buf) with e | u
    · have hcr' : checkRows cfg buf [] (rowsFrom cfg.row_sep buf 0) = .error e := hcr
      rw [hcr']
      refine iff_of_false (by simp) ?_
      intro hsort
      rw [hbridge.mpr hsort] at hcr
      exact Except.noConfusion hcr
    · cases u
      have hcr' : checkRows cfg buf [] (rowsFrom cfg.row_sep buf 0) = .ok () := hcr
      rw [hcr']
      exact iff_of_true rfl (hbridge.mp hcr)

/-- Witness for C4: check mode on the sorted witness buffer. -/
theorem claim4_check_iff_witness :
    cfgCheck.check = true ∧ ColsOk cfgCheck bufW ∧
    ((Run cfgCheck bufW [] = .ok [] ↔ SortedBuf cfgCheck bufW) ∧
      (∀ c : List Nat, 0 ≤ cmpBytes (transform cfgCheck) [] c)) :=
  ⟨rfl, by decide, claim4_check_iff cfgCheck bufW [] rfl (by decide)⟩

/-- Claim C5 counterexample: on the sorted buffer `a\nb\n` the second row
has `Compare(previousColumn, column) = +1 > 0` under section 4.1's
sign-of-(other−self) convention, yet check mode succeeds — so the checker
does not fail when `Compare(previousColumn, column) > 0`; the code's failure
condition is `Compare(previousColumn, column) < 0`. -/
theorem claim5_counterexample :
    Run cfgCheck [97, 10, 98, 10] [] = .ok [] ∧
    rows cfgCheck.row_sep [97, 10, 98, 10] = [(0, 1), (2, 3)] ∧
    kcolR cfgCheck [97, 10, 98, 10] (0, 1) = [97] ∧
    kcolR cfgCheck [97, 10, 98, 10] (2, 3) = [98] ∧
    0 < cmpBytes (transform cfgCheck) [97] [98] := by decide

/-- Claim C5 (amended): in check mode the run fails exactly at the first row
whose key column compares below the previous one
(`Compare(previousColumn, column) < 0` in the sign-of-(other−self)
convention), with an ordering error carrying that row's bytes, whatever rows
follow. -/
theorem claim5_first_violation (cfg : Config) (buf key : List Nat)
    (hcheck : cfg.check = true) (hcols : ColsOk cfg buf)
    (pre : List (Nat × Nat)) (b : Nat × Nat) (post : List (Nat × Nat))
    (hdecomp : rows cfg.row_sep buf = pre ++ b :: post)
    (hok : List.Chain' (fun a c => 0 ≤ cmpBytes (transform cfg) a c)
      ([] :: pre.map (kcolR cfg buf)))
    (hviol : cmpBytes (transform cfg) ((pre.map (kcolR cfg buf)).getLastD [])
      (kcolR cfg buf b) < 0) :
    Run cfg buf key = .error (.unordered (slice buf b.1 b.2)) := by
  have hne : buf.length ≠ 0 := by
    intro h0
    have hnil : rows cfg.row_sep buf = [] := by
      rw [rows]; exact rowsFrom_eq_nil cfg.row_sep buf (by omega)
    rw [hdecomp] at hnil
    exact absurd hnil (by simp)
  rw [Run, RunAt, if_neg hne, if_pos hcheck,
    checkLoopA_eq cfg buf buf.length 0 [] (by omega) (fun r hr => hcols r hr)]
  have hpreok : checkRows cfg buf [] pre = .ok () :=
    (checkRows_ok_iff cfg buf pre []).mpr hok
  have herr := checkRows_err cfg buf pre [] b post hpreok hviol
  have hdecomp' : rowsFrom cfg.row_sep buf 0 = pre ++ b :: post := hdecomp
  rw [hdecomp', herr]

/-- Witness for C5 (amended): buffer `b\na\n` fails at the `a` row. -/
theorem claim5_first_violation_witness :
    cfgCheck.check = true ∧ ColsOk cfgCheck [98, 10, 97, 10] ∧
    rows cfgCheck.row_sep [98, 10, 97, 10] = [(0, 1)] ++ (2, 3) :: [] ∧
    List.Chain' (fun a c => 0 ≤ cmpBytes (transform cfgCheck) a c)
      ([] :: [(0, 1)].map (kcolR cfgCheck [98, 10, 97, 10])) ∧
    cmpBytes (transform cfgCheck)
      (([(0, 1)].map (kcolR cfgCheck [98, 10, 97, 10])).getLastD [])
      (kcolR cfgCheck [98, 10, 97, 10] (2, 3)) < 0 ∧
    Run cfgCheck [98, 10, 97, 10] [] =
      .error (.unordered (slice [98, 10, 97, 10] 2 3)) := by
  refine ⟨rfl, by decide, by decide, ?_, by decide, ?_⟩
  · refine List.chain'_cons.mpr ⟨?_, ?_⟩
    · decide
    · exact List.chain'_singleton _
  · refine claim5_first_violation cfgCheck [98, 10, 97, 10] [] rfl (by decide)
      [(0, 1)] (2, 3) [] (by decide) ?_ (by decide)
    refine List.chain'_cons.mpr ⟨?_, ?_⟩
    · decide
    · exact List.chain'_singleton _

/-- First-difference characterisation of `Compare`, shared by claim C6. -/
theorem cmp_char_main (f : Nat → Nat) :
    ∀ a b : List Nat,
      (∃ j, j < a.length ∧ j < b.length ∧
        (∀ i, i < j → f (a.getD i 0) = f (b.getD i 0)) ∧
        ¬ f (a.getD j 0) = f (b.getD j 0) ∧
        cmpBytes f a b = (f (b.getD j 0) : Int) - (f (a.getD j 0) : Int)) ∨
      ((∀ i, i < a.length → i < b.length → f (a.getD i 0) = f (b.getD i 0)) ∧
        cmpBytes f a b = (b.length : Int) - (a.length : Int)) := by
  intro a
  induction a with
  | nil =>
    intro b
    refine Or.inr ⟨?_, ?_⟩
    · intro i hi _
      simp at hi
    · rw [cmpBytes_nil_left]
      simp
  | cons x xs ih =>
    intro b
    cases b with
    | nil =>
      refine Or.inr ⟨?_, ?_⟩
      · intro i _ hi
        simp at hi
      · show -(((x :: xs).length : Int)) = _
        simp
    | cons y ys =>
      by_cases hxy : f x = f y
      · rcases ih ys with ⟨j, hj1, hj2, hj3, hj4, hj5⟩ | ⟨h1, h2⟩
        · refine Or.inl ⟨j + 1, by simp only [List.length_cons]; omega,
            by simp only [List.length_cons]; omega, ?_, ?_, ?_⟩
          · intro i hi
            cases i with
            | zero => simpa using hxy
            | succ i =>
              simp only [List.getD_cons_succ]
              exact hj3 i (by omega)
          · simp only [List.getD_cons_succ]
            exact hj4
          · simp only [cmpBytes, if_pos hxy, List.getD_cons_succ]
            exact hj5
        · refine Or.inr ⟨?_, ?_⟩
          · intro i hi1 hi2
            cases i with
            | zero => simpa using hxy
            | succ i =>
              simp only [List.getD_cons_succ]
              exact h1 i (by simp only [List.length_cons] at hi1; omega)
                (by simp only [List.length_cons] at hi2; omega)
          · simp only [cmpBytes, if_pos hxy, List.length_cons]
            rw [h2]
            push_cast
            ring
      · refine Or.inl ⟨0, by simp, by simp, ?_, by simpa using hxy, ?_⟩
        · intro i hi
          omega
        · simp only [cmpBytes, if_neg hxy, List.getD_cons_zero]

/-- Claim C6: `Compare` walks both ranges from the start; at the first
differing transformed byte it returns the sign of (other − self) there, and
if none is found before a range is exhausted it returns the signed
difference of the remaining lengths — so a strict (transformed) prefix
compares less than its extension. -/
theorem claim6_compare_spec (f : Nat → Nat) (a b : List Nat) :
    ((∃ j, j < a.length ∧ j < b.length ∧
        (∀ i, i < j → f (a.getD i 0) = f (b.getD i 0)) ∧
        ¬ f (a.getD j 0) = f (b.getD j 0) ∧
        cmpBytes f a b = (f (b.getD j 0) : Int) - (f (a.getD j 0) : Int)) ∨
      ((∀ i, i < a.length → i < b.length → f (a.getD i 0) = f (b.getD i 0)) ∧
        cmpBytes f a b = (b.length : Int) - (a.length : Int))) ∧
    (a.length < b.length →
      (∀ i, i < a.length → f (a.getD i 0) = f (b.getD i 0)) →
      0 < cmpBytes f a b) := by
  refine ⟨cmp_char_main f a b, ?_⟩
  intro hlen hall
  rcases cmp_char_main f a b with ⟨j, hj1, -, -, hj4, -⟩ | ⟨-, h2⟩
  · exact absurd (hall j hj1) hj4
  · rw [h2]
    omega

/-- Claim C7: `GetColumn` fails with a not-enough-columns error carrying the
row's bytes exactly when the column-start list has fewer than `col + 1`
entries — for a resolved row's canonical start list that means fewer than
`col` columns — and otherwise returns the bytes from
`colStarts[col-1]` up to but excluding `colStarts[col] - 1`. -/
theorem claim7_getColumn_spec (buf colStarts : List Nat) (c fst lst cs s e : Nat) :
    ((GetColumn buf colStarts c fst lst =
        .error (.notEnoughColumns (slice buf fst lst))) ↔ colStarts.length < c + 1) ∧
    (c + 1 ≤ colStarts.length →
      GetColumn buf colStarts c fst lst =
        .ok (slice buf (colStarts.getD (c - 1) 0) (colStarts.getD c 0 - 1))) ∧
    ((rowStarts cs buf s e).length < c + 1 ↔ numCols cs buf s e < c) := by
  refine ⟨?_, ?_, ?_⟩
  · unfold GetColumn
    by_cases h : colStarts.length < c + 1
    · rw [if_pos h]
      exact iff_of_true rfl h
    · rw [if_neg h]
      exact iff_of_false (by simp) h
  · intro h
    unfold GetColumn
    rw [if_neg (by omega)]
  · rw [rowStarts_length]
    omega

/-- Witness for C7 at a concrete start list. -/
theorem claim7_getColumn_spec_witness :
    (((GetColumn [97, 9, 98, 10] [0, 2, 5] 1 0 4 =
        .error (.notEnoughColumns (slice [97, 9, 98, 10] 0 4))) ↔
          List.length [0, 2, 5] < 1 + 1) ∧
      (1 + 1 ≤ List.length [0, 2, 5] →
        GetColumn [97, 9, 98, 10] [0, 2, 5] 1 0 4 =
          .ok (slice [97, 9, 98, 10] (List.getD [0, 2, 5] 0 0)
            (List.getD [0, 2, 5] 1 0 - 1))) ∧
      ((rowStarts 9 [97, 9, 98, 10] 0 3).length < 1 + 1 ↔
        numCols 9 [97, 9, 98, 10] 0 3 < 1)) ∧
    (1 + 1 ≤ List.length [0, 2, 5] ∧
      GetColumn [97, 9, 98, 10] [0, 2, 5] 1 0 4 =
        .ok (slice [97, 9, 98, 10] (List.getD [0, 2, 5] 0 0)
          (List.getD [0, 2, 5] 1 0 - 1))) :=
  ⟨claim7_getColumn_spec [97, 9, 98, 10] [0, 2, 5] 1 0 4 9 0 3,
    by decide,
    (claim7_getColumn_spec [97, 9, 98, 10] [0, 2, 5] 1 0 4 9 0 3).2.1 (by decide)⟩

theorem getD_append_lt {l l' : List Nat} {i : Nat} (h : i < l.length) :
    (l ++ l').getD i 0 = l.getD i 0 := by
  rw [List.getD_eq_getElem?_getD, List.getD_eq_getElem?_getD,
    List.getElem?_append, if_pos h]

theorem getD_concat_length {l : List Nat} {x : Nat} :
    (l ++ [x]).getD l.length 0 = x := by
  rw [List.getD_eq_getElem?_getD, List.getElem?_append, if_neg (by omega)]
  simp

/-- Claim C8 counterexample: scanning the row `a`, terminated by the row
separator at offset 1, appends the sentinel 2 = (separator offset) + 1 — not
1, the position one past the row's last byte (the byte before the
separator). -/
theorem claim8_counterexample :
    findRowEndFull 9 10 [97, 10] 0 2 = (1, [2]) ∧
    List.getD [97, 10] 1 0 = 10 ∧
    ¬ ((2 : Nat) = 1) := by decide

/-- Claim C8 (amended): `FindRowEnd` always appends `last + 1` — one past
the terminating row separator (or one past the upper bound when no separator
occurs), i.e. two past the row's last byte; since `GetColumn` subtracts one,
the exclusive upper bound actually applied to the last column is the
appended entry minus one, which is one past the row's last byte. -/
theorem claim8_sentinel (cs rs : Nat) (buf : List Nat) (pos ub : Nat)
    (h : pos ≤ ub) (hub : ub ≤ buf.length) :
    ∃ e cols, findRowEndA cs rs buf pos (ub - pos) = (e, cols) ∧
      findRowEndFull cs rs buf pos (ub - pos) = (e, cols ++ [e + 1]) ∧
      pos ≤ e ∧ e ≤ ub ∧ (e < ub → buf.getD e 0 = rs) ∧
      GetColumn buf (pos :: (cols ++ [e + 1])) (cols.length + 1) pos e =
        .ok (slice buf ((pos :: cols).getD cols.length 0) e) := by
  obtain ⟨e1, e2, e3, e4, e5⟩ := findRowEndA_spec cs rs buf (ub - pos) pos
  have hpodd : pos + (ub - pos) = ub := by omega
  rw [hpodd] at e2 e4
  refine ⟨(findRowEndA cs rs buf pos (ub - pos)).1,
    (findRowEndA cs rs buf pos (ub - pos)).2, rfl, rfl, e1, e2, e4, ?_⟩
  unfold GetColumn
  rw [if_neg (by simp)]
  have hlist : pos :: ((findRowEndA cs rs buf pos (ub - pos)).2 ++
      [(findRowEndA cs rs buf pos (ub - pos)).1 + 1]) =
      (pos :: (findRowEndA cs rs buf pos (ub - pos)).2) ++
        [(findRowEndA cs rs buf pos (ub - pos)).1 + 1] := rfl
  rw [hlist]
  have hl1 : ((pos :: (findRowEndA cs rs buf pos (ub - pos)).2) ++
      [(findRowEndA cs rs buf pos (ub - pos)).1 + 1]).getD
        ((findRowEndA cs rs buf pos (ub - pos)).2.length + 1 - 1) 0 =
      (pos :: (findRowEndA cs rs buf pos (ub - pos)).2).getD
        ((findRowEndA cs rs buf pos (ub - pos)).2.length) 0 := by
    refine getD_append_lt ?_
    simp
  have hl2 : ((pos :: (findRowEndA cs rs buf pos (ub - pos)).2) ++
      [(findRowEndA cs rs buf pos (ub - pos)).1 + 1]).getD
        ((findRowEndA cs rs buf pos (ub - pos)).2.length + 1) 0 =
      (findRowEndA cs rs buf pos (ub - pos)).1 + 1 := by
    have : (findRowEndA cs rs buf pos (ub - pos)).2.length + 1 =
        (pos :: (findRowEndA cs rs buf pos (ub - pos)).2).length := by simp
    rw [this]
    exact getD_concat_length
  rw [hl1, hl2]
  have : (findRowEndA cs rs buf pos (ub - pos)).1 + 1 - 1 =
      (findRowEndA cs rs buf pos (ub - pos)).1 := by omega
  rw [this]

/-- Witness for C8 (amended) on the two-byte buffer `a\n`. -/
theorem claim8_sentinel_witness :
    (0 : Nat) ≤ 2 ∧ (2 : Nat) ≤ List.length [97, 10] ∧
    (∃ e cols, findRowEndA 9 10 [97, 10] 0 (2 - 0) = (e, cols) ∧
      findRowEndFull 9 10 [97, 10] 0 (2 - 0) = (e, cols ++ [e + 1]) ∧
      0 ≤ e ∧ e ≤ 2 ∧ (e < 2 → List.getD [97, 10] e 0 = 10) ∧
      GetColumn [97, 10] (0 :: (cols ++ [e + 1])) (cols.length + 1) 0 e =
        .ok (slice [97, 10] (List.getD (0 :: cols) cols.length 0) e)) :=
  ⟨by decide, by decide, claim8_sentinel 9 10 [97, 10] 0 2 (by decide) (by decide)⟩

/-- Claim C9: a key that prefix-matches a column compares ≤ it, for every
byte transform — so every prefix match lies at or after the binary search's
lower bound. -/
theorem claim9_prefix_le_compare (f : Nat → Nat) (k c : List Nat)
    (h : isPrefixB f k c = true) : 0 ≤ cmpBytes f k c :=
  isPrefixB_cmp f k c h

/-- Witness for C9 under the uppercase transform. -/
theorem claim9_prefix_le_compare_witness :
    isPrefixB toUpperByte [97] [65, 98] = true ∧
    0 ≤ cmpBytes toUpperByte [97] [65, 98] :=
  ⟨by decide, claim9_prefix_le_compare toUpperByte [97] [65, 98] (by decide)⟩

/-! ### Claim C10: no byte outside the window is ever read -/

theorem seps_mem_le {cs : Nat} {buf : List Nat} {s e x : Nat}
    (hx : x ∈ seps cs buf s e) : x ≤ e := by
  unfold seps at hx
  obtain ⟨q, hq1, hq2⟩ := List.mem_map.mp hx
  have hq3 := (List.mem_filter.mp hq1).1
  have hq4 := List.mem_range'_1.mp hq3
  omega

theorem getD_eq_of_take {b1 b2 : List Nat} {n p : Nat}
    (h : b1.take n = b2.take n) (hp : p < n) : b1.getD p 0 = b2.getD p 0 := by
  rw [List.getD_eq_getElem?_getD, List.getD_eq_getElem?_getD,
    ← List.getElem?_take_of_lt (l := b1) hp, ← List.getElem?_take_of_lt (l := b2) hp, h]

theorem take_eq_of_take {b1 b2 : List Nat} {n j : Nat}
    (h : b1.take n = b2.take n) (hj : j ≤ n) : b1.take j = b2.take j := by
  have h1 : b1.take j = (b1.take n).take j := by
    rw [List.take_take]
    congr 1
    omega
  have h2 : b2.take j = (b2.take n).take j := by
    rw [List.take_take]
    congr 1
    omega
  rw [h1, h2, h]

theorem slice_eq_of_take {b1 b2 : List Nat} {n i j : Nat}
    (h : b1.take n = b2.take n) (hj : j ≤ n) : slice b1 i j = slice b2 i j := by
  by_cases hij : i ≤ j
  · have e1 : slice b1 i j = (b1.take j).drop i := by
      rw [slice, List.take_drop]
      congr 2
      omega
    have e2 : slice b2 i j = (b2.take j).drop i := by
      rw [slice, List.take_drop]
      congr 2
      omega
    rw [e1, e2, take_eq_of_take h hj]
  · have h0 : j - i = 0 := by omega
    rw [slice, slice, h0]
    rfl

theorem findRowEndA_frame (cs rs : Nat) {b1 b2 : List Nat} {n : Nat}
    (h : b1.take n = b2.take n) :
    ∀ rem pos, pos + rem ≤ n →
      findRowEndA cs rs b1 pos rem = findRowEndA cs rs b2 pos rem := by
  intro rem
  induction rem with
  | zero => intro pos _; rfl
  | succ rem ih =>
    intro pos hpr
    have hb := getD_eq_of_take h (show pos < n by omega)
    simp only [findRowEndA]
    rw [hb]
    by_cases h1 : b2.getD pos 0 = rs
    · rw [if_pos h1, if_pos h1]
    · rw [if_neg h1, if_neg h1]
      by_cases h2 : b2.getD pos 0 = cs
      · rw [if_pos h2, if_pos h2, ih (pos + 1) (by omega)]
      · rw [if_neg h2, if_neg h2, ih (pos + 1) (by omega)]

theorem findRowBeginA_frame (cs rs : Nat) {b1 b2 : List Nat} {n : Nat}
    (h : b1.take n = b2.take n) :
    ∀ rem pos, rem ≤ pos → pos ≤ n →
      findRowBeginA cs rs b1 pos rem = findRowBeginA cs rs b2 pos rem := by
  intro rem
  induction rem with
  | zero => intro pos _ _; rfl
  | succ rem ih =>
    intro pos hrp hpn
    have hb := getD_eq_of_take h (show pos - 1 < n by omega)
    simp only [findRowBeginA]
    rw [hb]
    by_cases h1 : b2.getD (pos - 1) 0 = rs
    · rw [if_pos h1, if_pos h1]
    · rw [if_neg h1, if_neg h1]
      by_cases h2 : b2.getD (pos - 1) 0 = cs
      · rw [if_pos h2, if_pos h2, ih (pos - 1) (by omega) (by omega)]
      · rw [if_neg h2, if_neg h2, ih (pos - 1) (by omega) (by omega)]

theorem GetColumn_frame {b1 b2 : List Nat} {n : Nat}
    (h : b1.take n = b2.take n) (starts : List Nat) (c fst lst : Nat)
    (hl : lst ≤ n) (hs : ∀ x ∈ starts, x ≤ n + 1) :
    GetColumn b1 starts c fst lst = GetColumn b2 starts c fst lst := by
  unfold GetColumn
  by_cases hg : starts.length < c + 1
  · rw [if_pos hg, if_pos hg, slice_eq_of_take h hl]
  · rw [if_neg hg, if_neg hg]
    have hc : c < starts.length := by omega
    have hmem : starts.getD c 0 ∈ starts := by
      rw [List.getD_eq_getElem?_getD, List.getElem?_eq_getElem hc]
      exact List.getElem_mem hc
    have hbound := hs _ hmem
    rw [slice_eq_of_take h (by omega)]

theorem bsLoopA_frame (cfg : Config) (key : List Nat) {b1 b2 : List Nat} {n : Nat}
    (h : b1.take n = b2.take n) :
    ∀ fuel lb ub, ub ≤ n →
      bsLoopA cfg key b1 fuel lb ub = bsLoopA cfg key b2 fuel lb ub := by
  intro fuel
  induction fuel with
  | zero => intro lb ub _; rfl
  | succ fuel ih =>
    intro lb ub hub
    by_cases hlt : lb < ub
    · have hdiv : (ub - lb) / 2 < ub - lb := Nat.div_lt_self (by omega) (by omega)
      have hposlt : lb + (ub - lb) / 2 < ub := by omega
      have hrb : findRowBeginA cfg.col_sep cfg.row_sep b1 (lb + (ub - lb) / 2) (lb + (ub - lb) / 2 - lb) =
          findRowBeginA cfg.col_sep cfg.row_sep b2 (lb + (ub - lb) / 2) (lb + (ub - lb) / 2 - lb) :=
        findRowBeginA_frame cfg.col_sep cfg.row_sep h (lb + (ub - lb) / 2 - lb) (lb + (ub - lb) / 2)
          (by omega) (by omega)
      have hre : findRowEndA cfg.col_sep cfg.row_sep b1 (lb + (ub - lb) / 2) (ub - (lb + (ub - lb) / 2)) =
          findRowEndA cfg.col_sep cfg.row_sep b2 (lb + (ub - lb) / 2) (ub - (lb + (ub - lb) / 2)) :=
        findRowEndA_frame cfg.col_sep cfg.row_sep h (ub - (lb + (ub - lb) / 2)) (lb + (ub - lb) / 2) (by omega)
      obtain ⟨b1s, b2s, b3s, b4s, b5s⟩ :=
        findRowBeginA_spec cfg.col_sep cfg.row_sep b2 (lb + (ub - lb) / 2 - lb) (lb + (ub - lb) / 2) (by omega)
      obtain ⟨e1s, e2s, e3s, e4s, e5s⟩ :=
        findRowEndA_spec cfg.col_sep cfg.row_sep b2 (ub - (lb + (ub - lb) / 2)) (lb + (ub - lb) / 2)
      have hlst : (findRowEndA cfg.col_sep cfg.row_sep b2 (lb + (ub - lb) / 2) (ub - (lb + (ub - lb) / 2))).1 ≤ n := by
        omega
      have hsb : ∀ x ∈ ((findRowBeginA cfg.col_sep cfg.row_sep b2 (lb + (ub - lb) / 2) (lb + (ub - lb) / 2 - lb)).1 ::
          (findRowBeginA cfg.col_sep cfg.row_sep b2 (lb + (ub - lb) / 2) (lb + (ub - lb) / 2 - lb)).2) ++
          (findRowEndA cfg.col_sep cfg.row_sep b2 (lb + (ub - lb) / 2) (ub - (lb + (ub - lb) / 2))).2 ++
          [(findRowEndA cfg.col_sep cfg.row_sep b2 (lb + (ub - lb) / 2) (ub - (lb + (ub - lb) / 2))).1 + 1],
          x ≤ n + 1 := by
        intro x hx
        rcases List.mem_append.mp hx with hx | hx
        · rcases List.mem_append.mp hx with hx | hx
          · rcases List.mem_cons.mp hx with hx | hx
            · omega
            · rw [b5s] at hx
              have := seps_mem_le hx
              omega
          · rw [e5s] at hx
            have := seps_mem_le hx
            omega
        · rcases List.mem_cons.mp hx with hx | hx
          · omega
          · exact absurd hx (List.not_mem_nil x)
      have hgc : GetColumn b1
          (((findRowBeginA cfg.col_sep cfg.row_sep b2 (lb + (ub - lb) / 2) (lb + (ub - lb) / 2 - lb)).1 ::
            (findRowBeginA cfg.col_sep cfg.row_sep b2 (lb + (ub - lb) / 2) (lb + (ub - lb) / 2 - lb)).2) ++
           (findRowEndA cfg.col_sep cfg.row_sep b2 (lb + (ub - lb) / 2) (ub - (lb + (ub - lb) / 2))).2 ++
           [(findRowEndA cfg.col_sep cfg.row_sep b2 (lb + (ub - lb) / 2) (ub - (lb + (ub - lb) / 2))).1 + 1])
          cfg.col (findRowBeginA cfg.col_sep cfg.row_sep b2 (lb + (ub - lb) / 2) (lb + (ub - lb) / 2 - lb)).1
          (findRowEndA cfg.col_sep cfg.row_sep b2 (lb + (ub - lb) / 2) (ub - (lb + (ub - lb) / 2))).1 =
          GetColumn b2
          (((findRowBeginA cfg.col_sep cfg.row_sep b2 (lb + (ub - lb) / 2) (lb + (ub - lb) / 2 - lb)).1 ::
            (findRowBeginA cfg.col_sep cfg.row_sep b2 (lb + (ub - lb) / 2) (lb + (ub - lb) / 2 - lb)).2) ++
           (findRowEndA cfg.col_sep cfg.row_sep b2 (lb + (ub - lb) / 2) (ub - (lb + (ub - lb) / 2))).2 ++
           [(findRowEndA cfg.col_sep cfg.row_sep b2 (lb + (ub - lb) / 2) (ub - (lb + (ub - lb) / 2))).1 + 1])
          cfg.col (findRowBeginA cfg.col_sep cfg.row_sep b2 (lb + (ub - lb) / 2) (lb + (ub - lb) / 2 - lb)).1
          (findRowEndA cfg.col_sep cfg.row_sep b2 (lb + (ub - lb) / 2) (ub - (lb + (ub - lb) / 2))).1 :=
        GetColumn_frame h _ cfg.col _ _ hlst hsb
      rcases hg : GetColumn b2
          (((findRowBeginA cfg.col_sep cfg.row_sep b2 (lb + (ub - lb) / 2) (lb + (ub - lb) / 2 - lb)).1 ::
            (findRowBeginA cfg.col_sep cfg.row_sep b2 (lb + (ub - lb) / 2) (lb + (ub - lb) / 2 - lb)).2) ++
           (findRowEndA cfg.col_sep cfg.row_sep b2 (lb + (ub - lb) / 2) (ub - (lb + (ub - lb) / 2))).2 ++
           [(findRowEndA cfg.col_sep cfg.row_sep b2 (lb + (ub - lb) / 2) (ub - (lb + (ub - lb) / 2))).1 + 1])
          cfg.col (findRowBeginA cfg.col_sep cfg.row_sep b2 (lb + (ub - lb) / 2) (lb + (ub - lb) / 2 - lb)).1
          (findRowEndA cfg.col_sep cfg.row_sep b2 (lb + (ub - lb) / 2) (ub - (lb + (ub - lb) / 2))).1 with e | column
      · have h1 : bsLoopA cfg key b1 (fuel + 1) lb ub = .error e := by
          simp only [bsLoopA]
          rw [if_pos hlt, hrb, hre, hgc, hg]
        have h2 : bsLoopA cfg key b2 (fuel + 1) lb ub = .error e := by
          simp only [bsLoopA]
          rw [if_pos hlt, hg]
        rw [h1, h2]
      · have h1 : bsLoopA cfg key b1 (fuel + 1) lb ub =
            (if 0 ≤ cmpBytes (transform cfg) key column then
              bsLoopA cfg key b1 fuel lb
                (findRowBeginA cfg.col_sep cfg.row_sep b2 (lb + (ub - lb) / 2) (lb + (ub - lb) / 2 - lb)).1
            else bsLoopA cfg key b1 fuel
              ((findRowEndA cfg.col_sep cfg.row_sep b2 (lb + (ub - lb) / 2) (ub - (lb + (ub - lb) / 2))).1 + 1) ub) := by
          simp only [bsLoopA]
          rw [if_pos hlt, hrb, hre, hgc, hg]
        have h2 : bsLoopA cfg key b2 (fuel + 1) lb ub =
            (if 0 ≤ cmpBytes (transform cfg) key column then
              bsLoopA cfg key b2 fuel lb
                (findRowBeginA cfg.col_sep cfg.row_sep b2 (lb + (ub - lb) / 2) (lb + (ub - lb) / 2 - lb)).1
            else bsLoopA cfg key b2 fuel
              ((findRowEndA cfg.col_sep cfg.row_sep b2 (lb + (ub - lb) / 2) (ub - (lb + (ub - lb) / 2))).1 + 1) ub) := by
          simp only [bsLoopA]
          rw [if_pos hlt, hg]
        rw [h1, h2]
        by_cases hcmp : 0 ≤ cmpBytes (transform cfg) key column
        · rw [if_pos hcmp, if_pos hcmp, ih lb _ (by omega)]
        · rw [if_neg hcmp, if_neg hcmp, ih _ ub hub]
    · have h1 : bsLoopA cfg key b1 (fuel + 1) lb ub = .ok (lb, ub) := by
        simp only [bsLoopA]
        rw [if_neg hlt]
      have h2 : bsLoopA cfg key b2 (fuel + 1) lb ub = .ok (lb, ub) := by
        simp only [bsLoopA]
        rw [if_neg hlt]
      rw [h1, h2]

theorem scanLoopA_frame (cfg : Config) (key : List Nat) {b1 b2 : List Nat} {n : Nat}
    (h : b1.take n = b2.take n) (ub : Nat) (hub : ub ≤ n) :
    ∀ fuel lb, scanLoopA cfg key b1 ub fuel lb = scanLoopA cfg key b2 ub fuel lb := by
  intro fuel
  induction fuel with
  | zero => intro lb; rfl
  | succ fuel ih =>
    intro lb
    by_cases hlt : lb < ub
    · have hre : findRowEndA cfg.col_sep cfg.row_sep b1 lb (ub - lb) =
          findRowEndA cfg.col_sep cfg.row_sep b2 lb (ub - lb) :=
        findRowEndA_frame cfg.col_sep cfg.row_sep h (ub - lb) lb (by omega)
      obtain ⟨e1s, e2s, e3s, e4s, e5s⟩ :=
        findRowEndA_spec cfg.col_sep cfg.row_sep b2 (ub - lb) lb
      have hsb : ∀ x ∈ lb :: (findRowEndA cfg.col_sep cfg.row_sep b2 lb (ub - lb)).2 ++
          [(findRowEndA cfg.col_sep cfg.row_sep b2 lb (ub - lb)).1 + 1], x ≤ n + 1 := by
        intro x hx
        rcases List.mem_cons.mp hx with hx | hx
        · omega
        · rcases List.mem_append.mp hx with hx | hx
          · rw [e5s] at hx
            have := seps_mem_le hx
            omega
          · rcases List.mem_cons.mp hx with hx | hx
            · omega
            · exact absurd hx (List.not_mem_nil x)
      have hgc : GetColumn b1
          (lb :: (findRowEndA cfg.col_sep cfg.row_sep b2 lb (ub - lb)).2 ++
            [(findRowEndA cfg.col_sep cfg.row_sep b2 lb (ub - lb)).1 + 1])
          cfg.col lb (findRowEndA cfg.col_sep cfg.row_sep b2 lb (ub - lb)).1 =
          GetColumn b2
          (lb :: (findRowEndA cfg.col_sep cfg.row_sep b2 lb (ub - lb)).2 ++
            [(findRowEndA cfg.col_sep cfg.row_sep b2 lb (ub - lb)).1 + 1])
          cfg.col lb (findRowEndA cfg.col_sep cfg.row_sep b2 lb (ub - lb)).1 :=
        GetColumn_frame h _ cfg.col _ _ (by omega) hsb
      rcases hg : GetColumn b2
          (lb :: (findRowEndA cfg.col_sep cfg.row_sep b2 lb (ub - lb)).2 ++
            [(findRowEndA cfg.col_sep cfg.row_sep b2 lb (ub - lb)).1 + 1])
          cfg.col lb (findRowEndA cfg.col_sep cfg.row_sep b2 lb (ub - lb)).1 with e | column
      · have h1 : scanLoopA cfg key b1 ub (fuel + 1) lb = .error e := by
          simp only [scanLoopA]
          rw [if_pos hlt, hre, hgc, hg]
        have h2 : scanLoopA cfg key b2 ub (fuel + 1) lb = .error e := by
          simp only [scanLoopA]
          rw [if_pos hlt, hg]
        rw [h1, h2]
      · have h1 : scanLoopA cfg key b1 ub (fuel + 1) lb =
            (if matchKey cfg key column then
              match scanLoopA cfg key b1 ub fuel
                  ((findRowEndA cfg.col_sep cfg.row_sep b2 lb (ub - lb)).1 + 1) with
              | .error e => .error e
              | .ok rest =>
                .ok ((lb, (findRowEndA cfg.col_sep cfg.row_sep b2 lb (ub - lb)).1) :: rest)
            else .ok []) := by
          simp only [scanLoopA]
          rw [if_pos hlt, hre, hgc, hg]
        have h2 : scanLoopA cfg key b2 ub (fuel + 1) lb =
            (if matchKey cfg key column then
              match scanLoopA cfg key b2 ub fuel
                  ((findRowEndA cfg.col_sep cfg.row_sep b2 lb (ub - lb)).1 + 1) with
              | .error e => .error e
              | .ok rest =>
                .ok ((lb, (findRowEndA cfg.col_sep cfg.row_sep b2 lb (ub - lb)).1) :: rest)
            else .ok []) := by
          simp only [scanLoopA]
          rw [if_pos hlt, hg]
        rw [h1, h2, ih ((findRowEndA cfg.col_sep cfg.row_sep b2 lb (ub - lb)).1 + 1)]
    · have h1 : scanLoopA cfg key b1 ub (fuel + 1) lb = .ok [] := by
        simp only [scanLoopA]
        rw [if_neg hlt]
      have h2 : scanLoopA cfg key b2 ub (fuel + 1) lb = .ok [] := by
        simp only [scanLoopA]
        rw [if_neg hlt]
      rw [h1, h2]

theorem checkLoopA_frame (cfg : Config) {b1 b2 : List Nat} {n : Nat}
    (h : b1.take n = b2.take n) (ub : Nat) (hub : ub ≤ n) :
    ∀ fuel lb prev, checkLoopA cfg b1 ub fuel lb prev = checkLoopA cfg b2 ub fuel lb prev := by
  intro fuel
  induction fuel with
  | zero => intro lb prev; rfl
  | succ fuel ih =>
    intro lb prev
    by_cases hlt : lb < ub
    · have hre : findRowEndA cfg.col_sep cfg.row_sep b1 lb (ub - lb) =
          findRowEndA cfg.col_sep cfg.row_sep b2 lb (ub - lb) :=
        findRowEndA_frame cfg.col_sep cfg.row_sep h (ub - lb) lb (by omega)
      obtain ⟨e1s, e2s, e3s, e4s, e5s⟩ :=
        findRowEndA_spec cfg.col_sep cfg.row_sep b2 (ub - lb) lb
      have hsb : ∀ x ∈ lb :: (findRowEndA cfg.col_sep cfg.row_sep b2 lb (ub - lb)).2 ++
          [(findRowEndA cfg.col_sep cfg.row_sep b2 lb (ub - lb)).1 + 1], x ≤ n + 1 := by
        intro x hx
        rcases List.mem_cons.mp hx with hx | hx
        · omega
        · rcases List.mem_append.mp hx with hx | hx
          · rw [e5s] at hx
            have := seps_mem_le hx
            omega
          · rcases List.mem_cons.mp hx with hx | hx
            · omega
            · exact absurd hx (List.not_mem_nil x)
      have hgc : GetColumn b1
          (lb :: (findRowEndA cfg.col_sep cfg.row_sep b2 lb (ub - lb)).2 ++
            [(findRowEndA cfg.col_sep cfg.row_sep b2 lb (ub - lb)).1 + 1])
          cfg.col lb (findRowEndA cfg.col_sep cfg.row_sep b2 lb (ub - lb)).1 =
          GetColumn b2
          (lb :: (findRowEndA cfg.col_sep cfg.row_sep b2 lb (ub - lb)).2 ++
            [(findRowEndA cfg.col_sep cfg.row_sep b2 lb (ub - lb)).1 + 1])
          cfg.col lb (findRowEndA cfg.col_sep cfg.row_sep b2 lb (ub - lb)).1 :=
        GetColumn_frame h _ cfg.col _ _ (by omega) hsb
      rcases hg : GetColumn b2
          (lb :: (findRowEndA cfg.col_sep cfg.row_sep b2 lb (ub - lb)).2 ++
            [(findRowEndA cfg.col_sep cfg.row_sep b2 lb (ub - lb)).1 + 1])
          cfg.col lb (findRowEndA cfg.col_sep cfg.row_sep b2 lb (ub - lb)).1 with e | column
      · have h1 : checkLoopA cfg b1 ub (fuel + 1) lb prev = .error e := by
          simp only [checkLoopA]
          rw [if_pos hlt, hre, hgc, hg]
        have h2 : checkLoopA cfg b2 ub (fuel + 1) lb prev = .error e := by
          simp only [checkLoopA]
          rw [if_pos hlt, hg]
        rw [h1, h2]
      · have h1 : checkLoopA cfg b1 ub (fuel + 1) lb prev =
            (if cmpBytes (transform cfg) prev column < 0 then
              .error (.unordered
                (slice b1 lb (findRowEndA cfg.col_sep cfg.row_sep b2 lb (ub - lb)).1))
            else checkLoopA cfg b1 ub fuel
              ((findRowEndA cfg.col_sep cfg.row_sep b2 lb (ub - lb)).1 + 1) column) := by
          simp only [checkLoopA]
          rw [if_pos hlt, hre, hgc, hg]
        have h2 : checkLoopA cfg b2 ub (fuel + 1) lb prev =
            (if cmpBytes (transform cfg) prev column < 0 then
              .error (.unordered
                (slice b2 lb (findRowEndA cfg.col_sep cfg.row_sep b2 lb (ub - lb)).1))
            else checkLoopA cfg b2 ub fuel
              ((findRowEndA cfg.col_sep cfg.row_sep b2 lb (ub - lb)).1 + 1) column) := by
          simp only [checkLoopA]
          rw [if_pos hlt, hg]
        rw [h1, h2, slice_eq_of_take h (by omega),
          ih ((findRowEndA cfg.col_sep cfg.row_sep b2 lb (ub - lb)).1 + 1) column]
    · have h1 : checkLoopA cfg b1 ub (fuel + 1) lb prev = .ok () := by
        simp only [checkLoopA]
        rw [if_neg hlt]
      have h2 : checkLoopA cfg b2 ub (fuel + 1) lb prev = .ok () := by
        simp only [checkLoopA]
        rw [if_neg hlt]
      rw [h1, h2]

/-- Claim C10: no step of the search or the check reads a byte outside the
window `[first, last)` — two buffers agreeing on their first `n` bytes give
identical results for a run bounded at `n`, in every mode, even though the
sentinel `last + 1` recorded after a final row lacking a trailing separator
may equal one past the window (it is never dereferenced: column extraction
subtracts one first). -/
theorem claim10_no_reads_outside (cfg : Config) (key : List Nat) (n : Nat)
    (b1 b2 : List Nat) (h : b1.take n = b2.take n) :
    RunAt cfg b1 n key = RunAt cfg b2 n key := by
  unfold RunAt
  by_cases hn : n = 0
  · rw [if_pos hn, if_pos hn]
  · rw [if_neg hn, if_neg hn]
    by_cases hc : cfg.check = true
    · rw [if_pos hc, if_pos hc, checkLoopA_frame cfg h n (le_refl _) n 0 []]
    · rw [if_neg hc, if_neg hc, bsLoopA_frame cfg key h n 0 n (le_refl _)]
      rcases bsLoopA cfg key b2 n 0 n with e | r
      · rfl
      · show scanLoopA cfg key b1 n (n - r.1) r.1 = scanLoopA cfg key b2 n (n - r.1) r.1
        exact scanLoopA_frame cfg key h n (le_refl _) (n - r.1) r.1

/-- Witness for C10: buffers differing beyond the bound behave alike. -/
theorem claim10_no_reads_outside_witness :
    List.take 2 [97, 10, 98] = List.take 2 [97, 10, 99, 100] ∧
    RunAt cfgPrefix [97, 10, 98] 2 [97] = RunAt cfgPrefix [97, 10, 99, 100] 2 [97] :=
  ⟨by decide,
    claim10_no_reads_outside cfgPrefix [97] 2 [97, 10, 98] [97, 10, 99, 100] (by decide)⟩

end Bsq
